import Mathlib

/-!
# LibEBC bitcode retrieval

A shallow embedding of `lib/src/BitcodeRetriever.cpp` and of `EmbeddedFile`
(`lib/include/ebc/EmbeddedFile.h`, `lib/src/EmbeddedFile.cpp`) together with the
properties that the specification states of them.

Conventions of the embedding.

* A `char` buffer is a list of bytes (`Bytes`); a pointer into a buffer is the list of
  bytes readable from that address, or an offset into such a list.
* `llvm::Expected<T>` and the process-level effect of a failed `assert` are folded into
  the three-way `Outcome`. The retriever is embedded as the build with assertions
  checked (`NDEBUG` not defined, as in the sources): a violated assertion stops the
  process. What the scan does when the assertions are compiled out is embedded
  separately (`scanSectionsBuild`, `GetBitcodeInfoSectionsBuild`), for the statements
  about the assertions themselves.
* The object-inspection layer of LLVM (`Binary`, `SectionRef`, ...) is input data.
-/

namespace ebc

/-- Bytes of a `char` buffer or of a `std::string`. -/
abbrev Bytes := List Nat

/-- Result of one step of the retriever: a value, the failure state of an
`llvm::Expected` (an `llvm::Error` that the caller receives), or a failed
`assert` with its message (the process is aborted, nothing is returned). -/
inductive Outcome (α : Type) where
  | ok (value : α)
  | error (msg : String)
  | assertFailed (msg : String)
deriving DecidableEq, Repr

/-- View of `llvm::object::SectionRef`: the section name as `getName()` returns it, the
bytes `getContents()` returns, and `after`, the bytes that lie behind the contents in
the mapped file up to (not including) the next NUL byte. `after` is what a C-string
read that starts inside the section and finds no NUL there runs into. Sections whose
name or contents LLVM fails to deliver are not represented. -/
structure SectionRef where
  name : String
  contents : Bytes
  after : Bytes
deriving DecidableEq, Repr

/-- Modelled from the spec: `ebc/BitcodeMetadata.h` (class `BinaryMetadata`) is not among
the sources. Four attributes, each with a setter that stores its argument: file name,
file-format name, architecture name and the unique identifier. -/
structure BinaryMetadata where
  fileName : String
  fileFormatName : String
  arch : String
  uuid : Bytes
deriving DecidableEq, Repr

/-- Modelled from the spec: `ebc/BitcodeContainer.h` is not among the sources. A container
holds the raw bitcode bytes, the ordered compiler commands, the binary metadata and the
answer of the virtual `IsArchive()` (false for the base class, true for `BitcodeArchive`). -/
structure BitcodeContainer where
  IsArchive : Bool
  data : Bytes
  commands : List Bytes
  binaryMetadata : BinaryMetadata
deriving DecidableEq, Repr

/-- Modelled from the spec: the constructor `BitcodeContainer(data, size)`, which copies the
`size` bytes at `data`; commands start empty and the metadata unset. -/
def BitcodeContainer.new (data : Bytes) (size : Nat) : BitcodeContainer :=
  { IsArchive := false
    data := data.take size
    commands := []
    binaryMetadata := { fileName := "", fileFormatName := "", arch := "", uuid := [] } }

/-- The constructor `BitcodeArchive(const char* data, std::uint32_t size)` declared in
`ebc/BitcodeArchive.h`: the size argument is converted to 32 bits. Modelled from the
spec: its body is not among the sources; it is a `BitcodeContainer` over the same
bytes whose `IsArchive()` is true (the parsed bundle metadata is not represented). -/
def BitcodeArchive.new (data : Bytes) (size : Nat) : BitcodeContainer :=
  { BitcodeContainer.new data (size % 2 ^ 32) with IsArchive := true }

/-- Modelled from the spec: `BitcodeContainer::SetCommands`, which stores the list
(a second call overwrites the first). -/
def BitcodeContainer.SetCommands (c : BitcodeContainer) (commands : List Bytes) :
    BitcodeContainer :=
  { c with commands := commands }

/-- Modelled from the spec: `BitcodeRetriever::BitcodeInfo` (declared in
`ebc/BitcodeRetriever.h`, not among the sources): an architecture label and an
optionally absent container. -/
structure BitcodeInfo where
  arch : String
  bitcodeContainer : Option BitcodeContainer
deriving DecidableEq, Repr

/-- `BinaryMetadata::SetFileName` (see `BinaryMetadata`). -/
def BinaryMetadata.SetFileName (m : BinaryMetadata) (fileName : String) : BinaryMetadata :=
  { m with fileName := fileName }

/-- `BinaryMetadata::SetFileFormatName` (see `BinaryMetadata`). -/
def BinaryMetadata.SetFileFormatName (m : BinaryMetadata) (fileFormatName : String) :
    BinaryMetadata :=
  { m with fileFormatName := fileFormatName }

/-- `BinaryMetadata::SetArch` (see `BinaryMetadata`). -/
def BinaryMetadata.SetArch (m : BinaryMetadata) (arch : String) : BinaryMetadata :=
  { m with arch := arch }

/-- `BinaryMetadata::SetUuid` (see `BinaryMetadata`). -/
def BinaryMetadata.SetUuid (m : BinaryMetadata) (uuid : Bytes) : BinaryMetadata :=
  { m with uuid := uuid }

/-- View of `llvm::object::ObjectFile` and of `MachOObjectFile`: what the retriever reads
from an object. `archName` is the architecture name the object reports, that is
`getArchTriple(nullptr).getArchName()` for a Mach-O object and
`Triple::getArchTypeName(getArch())` for any other; `uuid` is `getUuid()` (Mach-O only). -/
structure ObjectFile where
  fileName : String
  fileFormatName : String
  archName : String
  uuid : Bytes
  sections : List SectionRef
deriving DecidableEq, Repr

mutual
/-- View of `llvm::object::Binary` by the `dyn_cast` that succeeds first:
`MachOUniversalBinary` with its `objects()`, `MachOObjectFile`, another `ObjectFile`,
`Archive`, or none of these. -/
inductive Binary where
  | universal (objects : List ObjectForArch)
  | machO (objectFile : ObjectFile)
  | object (objectFile : ObjectFile)
  | archive (archive : Archive)
  | other
/-- View of `llvm::object::Archive`: the children that `children(err)` enumerates and
the error, if any, that ends the enumeration after them. -/
inductive Archive where
  | mk (children : List Child) (err : Option String)
/-- Result of `Archive::Child::getAsBinary()`. -/
inductive Child where
  | binary (b : Binary)
  | unreadable (msg : String)
/-- View of `MachOUniversalBinary::ObjectForArch`: the results of `getAsObjectFile()`
and of `getAsArchive()` (`none` is the error state). -/
inductive ObjectForArch where
  | mk (asObjectFile : Option ObjectFile) (asArchive : Option Archive)
end

/-- `GetFileName`'s `std::string::rfind(c)`: the index of the last occurrence of `c`. -/
def rfind : List Char → Char → Option Nat
  | [], _ => none
  | x :: xs, c =>
    match rfind xs c with
    | some i => some (i + 1)
    | none => if x = c then some 0 else none

/-- `GetFileName`: strip the path from a file name. -/
def GetFileName (fileName : String) : String :=
  match rfind fileName.data '/' with
  | none => fileName
  | some pos => String.mk (fileName.data.drop (pos + 1))

namespace Impl

/-- `GetSectionData`: the pointer to the section's contents (the bytes readable from
there) and the size of the contents. -/
def GetSectionData (sect : SectionRef) : Bytes × Nat :=
  (sect.contents ++ sect.after, sect.contents.length)

/-- `std::string(p)` for a `const char* p`: the bytes before the first NUL. -/
def cString (mem : Bytes) : Bytes :=
  mem.takeWhile (fun b => b != 0)

/-- The `do { ... } while (p < end)` loop of `GetCommands`; `p` and `last` are the
offsets of the pointers `p` and `end` from `data.first`. -/
def GetCommandsLoop (mem : Bytes) (p last : Nat) (cmds : List Bytes) : List Bytes :=
  let cmds1 := cmds ++ [cString (mem.drop p)]
  let p1 := p + ((cString (mem.drop p)).length + 1)
  if _h : p1 < last then GetCommandsLoop mem p1 last cmds1 else cmds1
termination_by last - p
decreasing_by omega

/-- `GetCommands`: the compiler commands of a section, the strings read back to back from
the start of its data. -/
def GetCommands (sect : SectionRef) : List Bytes :=
  GetCommandsLoop (GetSectionData sect).1 0 (GetSectionData sect).2 []

/-- The `for` loop of `GetBitcodeInfo(section_iterator, section_iterator)`: the state
is the container pointer and the commands vector. -/
def scanSections : List SectionRef → Option BitcodeContainer → List Bytes →
    Outcome (Option BitcodeContainer × List Bytes)
  | [], bitcodeContainer, commands => .ok (bitcodeContainer, commands)
  | it :: rest, bitcodeContainer, commands =>
    if it.name = ".llvmbc" ∨ it.name = "__bitcode" then
      if bitcodeContainer.isSome then .assertFailed "Multiple bitcode sections!"
      else scanSections rest
        (some (BitcodeContainer.new (GetSectionData it).1 (GetSectionData it).2)) commands
    else if it.name = "__bundle" then
      if bitcodeContainer.isSome then .assertFailed "Multiple bitcode sections!"
      else scanSections rest
        (some (BitcodeArchive.new (GetSectionData it).1 (GetSectionData it).2)) commands
    else if it.name = "__cmd" ∨ it.name = "__cmdline" ∨ it.name = ".llvmcmd" then
      if commands ≠ [] then .assertFailed "Multiple command sections!"
      else scanSections rest bitcodeContainer (GetCommands it)
    else scanSections rest bitcodeContainer commands

/-- `GetBitcodeInfo(section_iterator begin, section_iterator end)`: the marker-section
scan of one object. -/
def GetBitcodeInfoSections (sections : List SectionRef) : Outcome (Option BitcodeContainer) :=
  match scanSections sections none [] with
  | .ok (bitcodeContainer, commands) =>
    if commands ≠ [] then
      match bitcodeContainer with
      | none => .assertFailed "Expected bitcode container!"
      | some c => .ok (some (c.SetCommands commands))
    else .ok bitcodeContainer
  | .error msg => .error msg
  | .assertFailed msg => .assertFailed msg

/-- `GetBitcodeInfoFromMachO`. -/
def GetBitcodeInfoFromMachO (objectFile : ObjectFile) : Outcome BitcodeInfo :=
  match GetBitcodeInfoSections objectFile.sections with
  | .ok (some c) =>
    .ok { arch := objectFile.archName
          bitcodeContainer := some { c with
            binaryMetadata := (((c.binaryMetadata.SetFileName
              (GetFileName objectFile.fileName)).SetFileFormatName
              objectFile.fileFormatName).SetArch objectFile.archName).SetUuid
              objectFile.uuid } }
  | .ok none => .ok { arch := objectFile.archName, bitcodeContainer := none }
  | .error msg => .error msg
  | .assertFailed msg => .assertFailed msg

/-- `GetBitcodeInfoFromObject`. -/
def GetBitcodeInfoFromObject (objectFile : ObjectFile) : Outcome BitcodeInfo :=
  match GetBitcodeInfoSections objectFile.sections with
  | .ok (some c) =>
    .ok { arch := objectFile.archName
          bitcodeContainer := some { c with
            binaryMetadata := ((c.binaryMetadata.SetFileName
              (GetFileName objectFile.fileName)).SetFileFormatName
              objectFile.fileFormatName).SetArch objectFile.archName } }
  | .ok none => .ok { arch := objectFile.archName, bitcodeContainer := none }
  | .error msg => .error msg
  | .assertFailed msg => .assertFailed msg

mutual
/-- `GetBitcodeInfo(const llvm::object::Binary&)`. -/
def GetBitcodeInfo : Binary → Outcome (List BitcodeInfo)
  | .universal objects => universalLoop objects []
  | .machO machOObjectFile =>
    match GetBitcodeInfoFromMachO machOObjectFile with
    | .ok container => .ok ([] ++ [container])
    | .error msg => .error msg
    | .assertFailed msg => .assertFailed msg
  | .object object =>
    match GetBitcodeInfoFromObject object with
    | .ok container => .ok ([] ++ [container])
    | .error msg => .error msg
    | .assertFailed msg => .assertFailed msg
  | .archive archive => GetBitcodeInfoFromArchive archive
  | .other => .error "Unsupported binary"
/-- The loop over `universalBinary->objects()`; the state is `bitcodeContainers`. -/
def universalLoop : List ObjectForArch → List BitcodeInfo → Outcome (List BitcodeInfo)
  | [], bitcodeContainers => .ok bitcodeContainers
  | .mk (some machOObject) _ :: rest, bitcodeContainers =>
    match GetBitcodeInfoFromMachO machOObject with
    | .ok container => universalLoop rest (bitcodeContainers ++ [container])
    | .error msg => .error msg
    | .assertFailed msg => .assertFailed msg
  | .mk none (some archive) :: rest, bitcodeContainers =>
    match GetBitcodeInfoFromArchive archive with
    | .ok containers => universalLoop rest (bitcodeContainers ++ containers)
    | .error msg => .error msg
    | .assertFailed msg => .assertFailed msg
  | .mk none none :: rest, bitcodeContainers => universalLoop rest bitcodeContainers
/-- `GetBitcodeInfoFromArchive`. -/
def GetBitcodeInfoFromArchive : Archive → Outcome (List BitcodeInfo)
  | .mk children err => archiveLoop children err []
/-- The loop over `archive.children(err)` and the check of `err` behind it; the state
is `bitcodeContainers`. -/
def archiveLoop : List Child → Option String → List BitcodeInfo →
    Outcome (List BitcodeInfo)
  | [], some e, _ => .error e
  | [], none, bitcodeContainers => .ok bitcodeContainers
  | .unreadable msg :: _, _, _ => .error msg
  | .binary child :: rest, err, bitcodeContainers =>
    match GetBitcodeInfo child with
    | .ok containers => archiveLoop rest err (bitcodeContainers ++ containers)
    | .error msg => .error msg
    | .assertFailed msg => .assertFailed msg
end

end Impl

/-- The public `BitcodeRetriever::GetBitcodeInfo()`; `binaryOrErr` is the result of
`createBinary(_objectPath)`. Failures are logged and an empty vector is returned. -/
def BitcodeRetriever.GetBitcodeInfo (binaryOrErr : Except String Binary) :
    Outcome (List BitcodeInfo) :=
  match binaryOrErr with
  | .error _ => .ok []
  | .ok binary =>
    match Impl.GetBitcodeInfo binary with
    | .ok bitcodeContainers => .ok bitcodeContainers
    | .error _ => .ok []
    | .assertFailed msg => .assertFailed msg

/-! ## Vocabulary of the specification -/

/-- A section named as a bitcode payload or a bundle payload. -/
def isBitcodeMarker (s : SectionRef) : Bool :=
  decide (s.name = ".llvmbc" ∨ s.name = "__bitcode" ∨ s.name = "__bundle")

/-- A section named as a commands section. -/
def isCommands (s : SectionRef) : Bool :=
  decide (s.name = "__cmd" ∨ s.name = "__cmdline" ∨ s.name = ".llvmcmd")

/-- The strings `c1, ..., cn`, each followed by a NUL byte, back to back. -/
def nulTerminated : List Bytes → Bytes
  | [] => []
  | c :: cs => c ++ 0 :: nulTerminated cs

/-- The container that the scan constructs from a marker section. -/
def markerContainer (s : SectionRef) : BitcodeContainer :=
  if s.name = "__bundle" then BitcodeArchive.new (Impl.GetSectionData s).1 (Impl.GetSectionData s).2
  else BitcodeContainer.new (Impl.GetSectionData s).1 (Impl.GetSectionData s).2

/-- The per-member step of the archive loop: `child.getAsBinary()` followed by the
recursive `GetBitcodeInfo`. -/
def Impl.childResult : Child → Outcome (List BitcodeInfo)
  | .binary b => Impl.GetBitcodeInfo b
  | .unreadable msg => .error msg

/-- The per-slice step of the loop over a fat binary. -/
def Impl.sliceResult : ObjectForArch → Outcome (List BitcodeInfo)
  | .mk (some machOObject) _ =>
    match Impl.GetBitcodeInfoFromMachO machOObject with
    | .ok container => .ok [container]
    | .error msg => .error msg
    | .assertFailed msg => .assertFailed msg
  | .mk none (some archive) => Impl.GetBitcodeInfoFromArchive archive
  | .mk none none => .ok []

/-- Sequencing of two steps: the second runs on the value of the first; a failure or
a failed assertion of the first is the result. -/
def Outcome.andThen {α β : Type} (r : Outcome α) (f : α → Outcome β) : Outcome β :=
  match r with
  | .ok a => f a
  | .error msg => .error msg
  | .assertFailed msg => .assertFailed msg

mutual
/-- The plain-object leaves of a container tree in traversal order, each with the
outcome of its own retrieval. -/
def Binary.leafEntries : Binary → List (Outcome BitcodeInfo)
  | .universal objects => slicesLeafEntries objects
  | .machO o => [Impl.GetBitcodeInfoFromMachO o]
  | .object o => [Impl.GetBitcodeInfoFromObject o]
  | .archive a => a.leafEntries
  | .other => []
/-- Leaves below the slices of a fat binary. -/
def slicesLeafEntries : List ObjectForArch → List (Outcome BitcodeInfo)
  | [] => []
  | .mk (some o) _ :: rest => Impl.GetBitcodeInfoFromMachO o :: slicesLeafEntries rest
  | .mk none (some a) :: rest => a.leafEntries ++ slicesLeafEntries rest
  | .mk none none :: rest => slicesLeafEntries rest
/-- Leaves below an archive. -/
def Archive.leafEntries : Archive → List (Outcome BitcodeInfo)
  | .mk children _ => childrenLeafEntries children
/-- Leaves below the members of an archive. -/
def childrenLeafEntries : List Child → List (Outcome BitcodeInfo)
  | [] => []
  | .binary b :: rest => b.leafEntries ++ childrenLeafEntries rest
  | .unreadable _ :: rest => childrenLeafEntries rest
end

/-! ## The marker-section scan with and without `NDEBUG` -/

/-- Result of the marker-section scan in either build: an `Outcome` as before, or the
call `bitcodeContainer->SetCommands(commands)` through a null pointer, which has no
defined behaviour. -/
inductive BuildOutcome (α : Type) where
  | defined (r : Outcome α)
  | nullDereference
deriving DecidableEq, Repr

/-- The `for` loop of `GetBitcodeInfo(section_iterator, section_iterator)` in the build
that `ndebug` selects. With `NDEBUG` defined the three `assert`s are compiled out and
the assignment behind each of them always runs: a later marker section replaces the
container, a later commands section replaces the commands. -/
def Impl.scanSectionsBuild (ndebug : Bool) : List SectionRef → Option BitcodeContainer →
    List Bytes → Outcome (Option BitcodeContainer × List Bytes)
  | [], bitcodeContainer, commands => .ok (bitcodeContainer, commands)
  | it :: rest, bitcodeContainer, commands =>
    if it.name = ".llvmbc" ∨ it.name = "__bitcode" then
      if ndebug = false ∧ bitcodeContainer.isSome then
        .assertFailed "Multiple bitcode sections!"
      else Impl.scanSectionsBuild ndebug rest
        (some (BitcodeContainer.new (Impl.GetSectionData it).1 (Impl.GetSectionData it).2))
        commands
    else if it.name = "__bundle" then
      if ndebug = false ∧ bitcodeContainer.isSome then
        .assertFailed "Multiple bitcode sections!"
      else Impl.scanSectionsBuild ndebug rest
        (some (BitcodeArchive.new (Impl.GetSectionData it).1 (Impl.GetSectionData it).2))
        commands
    else if it.name = "__cmd" ∨ it.name = "__cmdline" ∨ it.name = ".llvmcmd" then
      if ndebug = false ∧ commands ≠ [] then .assertFailed "Multiple command sections!"
      else Impl.scanSectionsBuild ndebug rest bitcodeContainer (Impl.GetCommands it)
    else Impl.scanSectionsBuild ndebug rest bitcodeContainer commands

/-- `GetBitcodeInfo(section_iterator begin, section_iterator end)` in the build that
`ndebug` selects. With `NDEBUG` defined `assert(bitcodeContainer != nullptr)` is
compiled out and `SetCommands` is called through the pointer whatever it holds. -/
def Impl.GetBitcodeInfoSectionsBuild (ndebug : Bool) (sections : List SectionRef) :
    BuildOutcome (Option BitcodeContainer) :=
  match Impl.scanSectionsBuild ndebug sections none [] with
  | .ok (bitcodeContainer, commands) =>
    if commands ≠ [] then
      match bitcodeContainer with
      | none =>
        if ndebug = false then .defined (.assertFailed "Expected bitcode container!")
        else .nullDereference
      | some c => .defined (.ok (some (c.SetCommands commands)))
    else .defined (.ok bitcodeContainer)
  | .error msg => .defined (.error msg)
  | .assertFailed msg => .defined (.assertFailed msg)

/-! ## Embedded files (`EmbeddedFile.h`, `EmbeddedFile.cpp`) -/

/-- `EmbeddedFile::Type` (`Type` is reserved in Lean). -/
inductive EmbeddedFile.Kind where
  | Bitcode
  | Exports
  | File
  | LTO
  | Object
  | Xar
deriving DecidableEq, Repr

/-- `EmbeddedFile::CommandSource`. -/
inductive EmbeddedFile.CommandSource where
  | Clang
  | Swift
deriving DecidableEq, Repr

/-- The data members of `EmbeddedFile`. `_buffer` is `none` for a null pointer and
otherwise the bytes it points to. `_commandSource` has no initialiser in any
constructor: it is `none` until `SetCommands` stores one. -/
structure EmbeddedFile where
  _buffer : Option Bytes
  _bufferSize : Nat
  _name : String
  _type : EmbeddedFile.Kind
  _commands : List Bytes
  _commandSource : Option EmbeddedFile.CommandSource
deriving DecidableEq, Repr

namespace EmbeddedFile

/-- `EmbeddedFile(std::string name)`. -/
def fromName (name : String) : EmbeddedFile :=
  { _buffer := none, _bufferSize := 0, _name := name, _type := .File, _commands := [],
    _commandSource := none }

/-- `EmbeddedFile(std::string name, Type type)`. -/
def fromNameType (name : String) (type : Kind) : EmbeddedFile :=
  { _buffer := none, _bufferSize := 0, _name := name, _type := type, _commands := [],
    _commandSource := none }

/-- `EmbeddedFile(char *buffer, size_t bufferSize)`. -/
def fromBuffer (buffer : Option Bytes) (bufferSize : Nat) : EmbeddedFile :=
  { _buffer := buffer, _bufferSize := bufferSize, _name := "", _type := .File,
    _commands := [], _commandSource := none }

/-- `EmbeddedFile(char *buffer, size_t bufferSize, Type type)`. -/
def fromBufferType (buffer : Option Bytes) (bufferSize : Nat) (type : Kind) : EmbeddedFile :=
  { _buffer := buffer, _bufferSize := bufferSize, _name := "", _type := type,
    _commands := [], _commandSource := none }

/-- `EmbeddedFile::GetName`. -/
def GetName (f : EmbeddedFile) : String := f._name

/-- `EmbeddedFile::GetRawBuffer`. -/
def GetRawBuffer (f : EmbeddedFile) : Option Bytes × Nat := (f._buffer, f._bufferSize)

/-- `EmbeddedFile::GetCommands`. -/
def GetCommands (f : EmbeddedFile) : List Bytes := f._commands

/-- `EmbeddedFile::SetCommands`. -/
def SetCommands (f : EmbeddedFile) (commands : List Bytes) (source : CommandSource) :
    EmbeddedFile :=
  if commands ≠ [] then { f with _commands := commands, _commandSource := some source }
  else f

/-- `EmbeddedFile::GetType`. -/
def GetType (f : EmbeddedFile) : Kind := f._type

/-- `EmbeddedFile::GetCommandSource`. -/
def GetCommandSource (f : EmbeddedFile) : Option CommandSource := f._commandSource

/-- `operator==(const EmbeddedFile&, const EmbeddedFile&)`. -/
def eq (lhs rhs : EmbeddedFile) : Bool := decide (lhs.GetName = rhs.GetName)

end EmbeddedFile

/-! ## Budgets and measures for the termination statements -/

/-- The loop of `GetCommands` run for at most `fuel` iterations: `none` when the budget
is used up before the loop condition `p < end` fails. -/
def Impl.GetCommandsLoopFuel : Nat → Bytes → Nat → Nat → List Bytes → Option (List Bytes)
  | 0, _, _, _, _ => none
  | fuel + 1, mem, p, last, cmds =>
    if p + ((Impl.cString (mem.drop p)).length + 1) < last then
      Impl.GetCommandsLoopFuel fuel mem (p + ((Impl.cString (mem.drop p)).length + 1)) last
        (cmds ++ [Impl.cString (mem.drop p)])
    else some (cmds ++ [Impl.cString (mem.drop p)])

mutual
/-- `GetBitcodeInfo(const llvm::object::Binary&)` with a budget for the depth of the
recursion: every call on a binary uses one unit, `none` when the budget is used up. -/
def Impl.GetBitcodeInfoFuel : Nat → Binary → Option (Outcome (List BitcodeInfo))
  | 0, _ => none
  | fuel + 1, .universal objects => Impl.universalLoopFuel fuel objects []
  | _ + 1, .machO machOObjectFile =>
    match Impl.GetBitcodeInfoFromMachO machOObjectFile with
    | .ok container => some (.ok ([] ++ [container]))
    | .error msg => some (.error msg)
    | .assertFailed msg => some (.assertFailed msg)
  | _ + 1, .object object =>
    match Impl.GetBitcodeInfoFromObject object with
    | .ok container => some (.ok ([] ++ [container]))
    | .error msg => some (.error msg)
    | .assertFailed msg => some (.assertFailed msg)
  | fuel + 1, .archive archive => Impl.GetBitcodeInfoFromArchiveFuel fuel archive
  | _ + 1, .other => some (.error "Unsupported binary")
/-- The loop over the slices, with the budget left for the calls below. -/
def Impl.universalLoopFuel : Nat → List ObjectForArch → List BitcodeInfo →
    Option (Outcome (List BitcodeInfo))
  | _, [], bitcodeContainers => some (.ok bitcodeContainers)
  | fuel, .mk (some machOObject) _ :: rest, bitcodeContainers =>
    match Impl.GetBitcodeInfoFromMachO machOObject with
    | .ok container => Impl.universalLoopFuel fuel rest (bitcodeContainers ++ [container])
    | .error msg => some (.error msg)
    | .assertFailed msg => some (.assertFailed msg)
  | fuel, .mk none (some archive) :: rest, bitcodeContainers =>
    match Impl.GetBitcodeInfoFromArchiveFuel fuel archive with
    | none => none
    | some (.ok containers) =>
      Impl.universalLoopFuel fuel rest (bitcodeContainers ++ containers)
    | some (.error msg) => some (.error msg)
    | some (.assertFailed msg) => some (.assertFailed msg)
  | fuel, .mk none none :: rest, bitcodeContainers =>
    Impl.universalLoopFuel fuel rest bitcodeContainers
/-- `GetBitcodeInfoFromArchive`, with the budget left for the calls below. -/
def Impl.GetBitcodeInfoFromArchiveFuel : Nat → Archive → Option (Outcome (List BitcodeInfo))
  | fuel, .mk children err => Impl.archiveLoopFuel fuel children err []
/-- The loop over the members, with the budget left for the calls below. -/
def Impl.archiveLoopFuel : Nat → List Child → Option String → List BitcodeInfo →
    Option (Outcome (List BitcodeInfo))
  | _, [], some e, _ => some (.error e)
  | _, [], none, bitcodeContainers => some (.ok bitcodeContainers)
  | _, .unreadable msg :: _, _, _ => some (.error msg)
  | fuel, .binary child :: rest, err, bitcodeContainers =>
    match Impl.GetBitcodeInfoFuel fuel child with
    | none => none
    | some (.ok containers) => Impl.archiveLoopFuel fuel rest err (bitcodeContainers ++ containers)
    | some (.error msg) => some (.error msg)
    | some (.assertFailed msg) => some (.assertFailed msg)
end

mutual
/-- Nesting depth of a container tree: the longest chain of binaries, each a member of
an archive of the one before (directly or in a slice of a fat binary). -/
def Binary.depth : Binary → Nat
  | .universal objects => slicesDepth objects + 1
  | .machO _ => 1
  | .object _ => 1
  | .archive a => a.depth + 1
  | .other => 1
/-- Greatest depth below the slices of a fat binary. -/
def slicesDepth : List ObjectForArch → Nat
  | [] => 0
  | .mk (some _) _ :: rest => slicesDepth rest
  | .mk none (some a) :: rest => max a.depth (slicesDepth rest)
  | .mk none none :: rest => slicesDepth rest
/-- Greatest depth of the members of an archive. -/
def Archive.depth : Archive → Nat
  | .mk children _ => childrenDepth children
/-- Greatest depth of a list of members. -/
def childrenDepth : List Child → Nat
  | [] => 0
  | .binary b :: rest => max b.depth (childrenDepth rest)
  | .unreadable _ :: rest => childrenDepth rest
end

/-! ## Leaf objects of a container tree -/

mutual
/-- The plain objects of a container tree in traversal order. -/
def Binary.leafObjects : Binary → List ObjectFile
  | .universal objects => slicesLeafObjects objects
  | .machO o => [o]
  | .object o => [o]
  | .archive a => a.leafObjects
  | .other => []
/-- Objects below the slices of a fat binary. -/
def slicesLeafObjects : List ObjectForArch → List ObjectFile
  | [] => []
  | .mk (some o) _ :: rest => o :: slicesLeafObjects rest
  | .mk none (some a) :: rest => a.leafObjects ++ slicesLeafObjects rest
  | .mk none none :: rest => slicesLeafObjects rest
/-- Objects below an archive. -/
def Archive.leafObjects : Archive → List ObjectFile
  | .mk children _ => childrenLeafObjects children
/-- Objects below the members of an archive. -/
def childrenLeafObjects : List Child → List ObjectFile
  | [] => []
  | .binary b :: rest => b.leafObjects ++ childrenLeafObjects rest
  | .unreadable _ :: rest => childrenLeafObjects rest
end

/-- What an entry keeps of the object it was read from: the label is the object's
architecture, and a container, when present, carries that architecture and the
object's file name without its path in the binary metadata. -/
def entryOfObject (o : ObjectFile) (e : BitcodeInfo) : Prop :=
  e.arch = o.archName ∧
    ∀ c, e.bitcodeContainer = some c →
      c.binaryMetadata.arch = e.arch ∧ c.binaryMetadata.fileName = GetFileName o.fileName

/-- Leaf by leaf, a leaf entry is the retrieval of the leaf object. -/
def Impl.leafOf (o : ObjectFile) (r : Outcome BitcodeInfo) : Prop :=
  r = Impl.GetBitcodeInfoFromMachO o ∨ r = Impl.GetBitcodeInfoFromObject o

/-! ## The commands parser -/

namespace Impl

/-- A C-string read stops at the first NUL: a NUL-free `c` followed by a NUL reads as `c`. -/
theorem cString_append_nul (c rest : Bytes) (h : 0 ∉ c) : cString (c ++ 0 :: rest) = c := by
  induction c with
  | nil => simp [cString]
  | cons x xs ih =>
    have hx : x ≠ 0 := fun e => h (by simp [e])
    have hxs : 0 ∉ xs := fun e => h (by simp [e])
    have := ih hxs
    simp only [cString] at this ⊢
    simp [List.takeWhile_cons, hx, this]

/-- The loop body runs at least once: the result extends `cmds` by the string read at `p`. -/
theorem GetCommandsLoop_head (mem : Bytes) (p last : Nat) (cmds : List Bytes) :
    ∃ more, GetCommandsLoop mem p last cmds = cmds ++ cString (mem.drop p) :: more := by
  induction p, last, cmds using GetCommandsLoop.induct mem with
  | case1 p last cmds cmds1 p1 h ih =>
    obtain ⟨more, hm⟩ := ih
    rw [GetCommandsLoop]
    refine ⟨cString (List.drop p1 mem) :: more, ?_⟩
    have h2 : p + ((cString (List.drop p mem)).length + 1) < last := h
    simp only [h2, dite_true]
    rw [hm]
    simp [cmds1]
  | case2 p last cmds p1 h =>
    rw [GetCommandsLoop]
    refine ⟨[], ?_⟩
    simp [h]

/-- `GetCommands` never returns an empty vector, whatever the section holds. -/
theorem GetCommands_ne_nil (s : SectionRef) : GetCommands s ≠ [] := by
  obtain ⟨more, h⟩ := GetCommandsLoop_head (GetSectionData s).1 0 (GetSectionData s).2 []
  simp [GetCommands, h]

/-- The loop started at the first of the NUL-terminated strings `c :: cs`, with `last` behind
the last terminator, appends exactly these strings. -/
theorem GetCommandsLoop_nulTerminated (mem : Bytes) (after : Bytes) (cs : List Bytes) :
    ∀ (c : Bytes) (p : Nat) (cmds : List Bytes), (∀ x ∈ c :: cs, 0 ∉ x) →
      mem.drop p = nulTerminated (c :: cs) ++ after →
      GetCommandsLoop mem p (p + (nulTerminated (c :: cs)).length) cmds = cmds ++ c :: cs := by
  induction cs with
  | nil =>
    intro c p cmds hn hd
    rw [GetCommandsLoop]
    have hc : cString (mem.drop p) = c := by
      rw [hd]; simp only [nulTerminated, List.append_assoc, List.cons_append]
      exact cString_append_nul c _ (hn c (by simp))
    simp [hc, nulTerminated]
  | cons d ds ih =>
    intro c p cmds hn hd
    rw [GetCommandsLoop]
    have hc : cString (mem.drop p) = c := by
      rw [hd]; simp only [nulTerminated, List.append_assoc, List.cons_append]
      exact cString_append_nul c _ (hn c (by simp))
    have hlt : p + (c.length + 1) < p + (nulTerminated (c :: d :: ds)).length := by
      simp [nulTerminated]
    have hd2 : mem.drop (p + (c.length + 1)) = nulTerminated (d :: ds) ++ after := by
      rw [← List.drop_drop, hd]
      simp [nulTerminated]
    have := ih d (p + (c.length + 1)) (cmds ++ [c]) (fun x hx => hn x (by simp at hx ⊢; tauto)) hd2
    simp only [hc, hlt, dite_true]
    have e : p + (c.length + 1) + (nulTerminated (d :: ds)).length = p + (nulTerminated (c :: d :: ds)).length := by
      simp [nulTerminated]; omega
    rw [e] at this
    rw [this]; simp

/-- `GetCommands` on the bytes `c1, 0, ..., cn, 0` returns `[c1, ..., cn]`. -/
theorem GetCommands_nulTerminated (s : SectionRef) (cs : List Bytes) (hne : cs ≠ [])
    (hn : ∀ x ∈ cs, 0 ∉ x) (hb : s.contents = nulTerminated cs) : GetCommands s = cs := by
  cases cs with
  | nil => exact absurd rfl hne
  | cons c cs =>
    have := GetCommandsLoop_nulTerminated (s.contents ++ s.after) s.after cs c 0 [] hn (by simp [hb])
    simp only [GetCommands, GetSectionData]
    rw [hb] at this ⊢
    simpa using this

/-- On a section of zero bytes the loop body still runs once: the one string returned
is read from the bytes behind the section. -/
theorem GetCommands_zero_bytes (name : String) (after : Bytes) :
    GetCommands ⟨name, [], after⟩ = [cString after] := by
  simp only [GetCommands, GetSectionData]
  rw [GetCommandsLoop]
  simp

/-- A budget of `max 1 (last - p)` iterations suffices for the loop started at `p`. -/
theorem GetCommandsLoopFuel_enough (mem : Bytes) (last : Nat) :
    ∀ (fuel p : Nat) (cmds : List Bytes), max 1 (last - p) ≤ fuel →
      GetCommandsLoopFuel fuel mem p last cmds = some (GetCommandsLoop mem p last cmds) := by
  intro fuel
  induction fuel with
  | zero => intro p cmds h; omega
  | succ n ih =>
    intro p cmds h
    rw [GetCommandsLoopFuel, GetCommandsLoop]
    by_cases hlt : p + ((cString (mem.drop p)).length + 1) < last
    · simp only [hlt, if_true, dite_true]
      exact ih _ _ (by omega)
    · simp [hlt]

end Impl

/-! ## The marker-section scan -/

namespace Impl

/-- One step of the scan at a bitcode-marker section. -/
theorem scanSections_cons_bitcode (it : SectionRef) (rest : List SectionRef)
    (bc : Option BitcodeContainer) (cmds : List Bytes) (h : isBitcodeMarker it = true) :
    scanSections (it :: rest) bc cmds =
      if bc.isSome then .assertFailed "Multiple bitcode sections!"
      else scanSections rest (some (markerContainer it)) cmds := by
  simp only [isBitcodeMarker, decide_eq_true_eq] at h
  rw [scanSections]
  rcases h with h | h | h <;> simp [h, markerContainer]

/-- The commands names and the bitcode-marker names are disjoint. -/
theorem isCommands_not_isBitcodeMarker (it : SectionRef) (h : isCommands it = true) :
    isBitcodeMarker it = false := by
  simp only [isCommands, decide_eq_true_eq] at h
  rcases h with h | h | h <;> simp [isBitcodeMarker, h]

/-- One step of the scan at a commands section. -/
theorem scanSections_cons_commands (it : SectionRef) (rest : List SectionRef)
    (bc : Option BitcodeContainer) (cmds : List Bytes) (h : isCommands it = true) :
    scanSections (it :: rest) bc cmds =
      if cmds ≠ [] then .assertFailed "Multiple command sections!"
      else scanSections rest bc (GetCommands it) := by
  simp only [isCommands, decide_eq_true_eq] at h
  rw [scanSections]
  rcases h with h | h | h <;> simp [h]

/-- One step of the scan at a section with no marker name. -/
theorem scanSections_cons_other (it : SectionRef) (rest : List SectionRef)
    (bc : Option BitcodeContainer) (cmds : List Bytes) (hb : isBitcodeMarker it = false)
    (hc : isCommands it = false) :
    scanSections (it :: rest) bc cmds = scanSections rest bc cmds := by
  simp only [isBitcodeMarker, isCommands, decide_eq_false_iff_not, not_or] at hb hc
  rw [scanSections]
  simp [hb, hc]

/-- The scan loop on a list with no second marker and no second commands section. -/
theorem scanSections_ok (secs : List SectionRef) :
    ∀ (bc : Option BitcodeContainer) (cmds : List Bytes),
      (secs.filter isBitcodeMarker = [] ∨
        (bc = none ∧ ∃ m, secs.filter isBitcodeMarker = [m])) →
      (secs.filter isCommands = [] ∨ (cmds = [] ∧ ∃ c, secs.filter isCommands = [c])) →
      scanSections secs bc cmds = .ok
        (match secs.filter isBitcodeMarker with
          | [] => bc
          | m :: _ => some (markerContainer m),
         match secs.filter isCommands with
          | [] => cmds
          | c :: _ => GetCommands c) := by
  induction secs with
  | nil => intro bc cmds _ _; simp [scanSections]
  | cons it rest ih =>
    intro bc cmds hb hc
    by_cases h1 : isBitcodeMarker it = true
    · have h2 : isCommands it = false := by
        cases h : isCommands it
        · rfl
        · rw [isCommands_not_isBitcodeMarker it h] at h1; cases h1
      rw [scanSections_cons_bitcode it rest bc cmds h1]
      simp only [List.filter_cons, h1, h2, if_true] at hb hc ⊢
      rcases hb with hb | ⟨hbc, m, hm⟩
      · cases hb
      · subst hbc
        have hr : rest.filter isBitcodeMarker = [] := by
          simp only [List.cons.injEq] at hm; exact hm.2
        rw [ih (some (markerContainer it)) cmds (Or.inl hr) (by simpa using hc)]
        simp [hr]
    · have h1f : isBitcodeMarker it = false := by simpa using h1
      by_cases h2 : isCommands it = true
      · rw [scanSections_cons_commands it rest bc cmds h2]
        simp only [List.filter_cons, h1f, h2, if_true] at hb hc ⊢
        rcases hc with hc | ⟨hcm, c, hc⟩
        · cases hc
        · subst hcm
          have hr : rest.filter isCommands = [] := by
            simp only [List.cons.injEq] at hc; exact hc.2
          rw [ih bc (GetCommands it) (by simpa using hb) (Or.inl hr)]
          simp [hr]
      · have h2f : isCommands it = false := by simpa using h2
        rw [scanSections_cons_other it rest bc cmds h1f h2f]
        simp only [List.filter_cons, h1f, h2f] at hb hc ⊢
        exact ih bc cmds (by simpa using hb) (by simpa using hc)

/-- The container of a `.llvmbc` or `__bitcode` section. -/
theorem markerContainer_data_of_not_bundle (b : SectionRef) (h : b.name ≠ "__bundle") :
    markerContainer b = BitcodeContainer.new (b.contents ++ b.after) b.contents.length := by
  simp [markerContainer, h, GetSectionData]

/-- The container of a `__bundle` section. -/
theorem markerContainer_of_bundle (b : SectionRef) (h : b.name = "__bundle") :
    markerContainer b = BitcodeArchive.new (b.contents ++ b.after) b.contents.length := by
  simp [markerContainer, h, GetSectionData]

/-- The constructor copies exactly the contents of the section. -/
theorem BitcodeContainer_new_data (contents after : Bytes) :
    (BitcodeContainer.new (contents ++ after) contents.length).data = contents := by
  simp [BitcodeContainer.new]

/-- The scan of a list with at most one marker and at most one commands section. -/
theorem GetBitcodeInfoSections_ok (secs : List SectionRef)
    (hb : (secs.filter isBitcodeMarker).length ≤ 1)
    (hc : (secs.filter isCommands).length ≤ 1) :
    GetBitcodeInfoSections secs =
      match secs.filter isBitcodeMarker, secs.filter isCommands with
      | [], [] => .ok none
      | [], _ :: _ => .assertFailed "Expected bitcode container!"
      | m :: _, [] => .ok (some (markerContainer m))
      | m :: _, c :: _ => .ok (some ((markerContainer m).SetCommands (GetCommands c))) := by
  have h1 : secs.filter isBitcodeMarker = [] ∨
      ((none : Option BitcodeContainer) = none ∧ ∃ m, secs.filter isBitcodeMarker = [m]) := by
    match h : secs.filter isBitcodeMarker with
    | [] => exact Or.inl rfl
    | [m] => exact Or.inr ⟨rfl, m, rfl⟩
    | _ :: _ :: _ => rw [h] at hb; simp at hb
  have h2 : secs.filter isCommands = [] ∨
      (([] : List Bytes) = [] ∧ ∃ c, secs.filter isCommands = [c]) := by
    match h : secs.filter isCommands with
    | [] => exact Or.inl rfl
    | [c] => exact Or.inr ⟨rfl, c, rfl⟩
    | _ :: _ :: _ => rw [h] at hc; simp at hc
  rw [GetBitcodeInfoSections, scanSections_ok secs none [] h1 h2]
  rcases h1 with h1 | ⟨_, m, h1⟩ <;> rcases h2 with h2 | ⟨_, c, h2⟩ <;>
    simp [h1, h2, GetCommands_ne_nil]

/-- A section list without any of the six marker names has no marker and no commands
section. -/
theorem filter_markers_of_names (secs : List SectionRef)
    (h : ∀ s ∈ secs, s.name ∉
      [".llvmbc", "__bitcode", "__bundle", "__cmd", "__cmdline", ".llvmcmd"]) :
    secs.filter isBitcodeMarker = [] ∧ secs.filter isCommands = [] := by
  constructor
  · rw [List.filter_eq_nil_iff]
    intro s hs
    have := h s hs
    simp only [List.mem_cons, List.mem_singleton, not_or, List.not_mem_nil, or_false] at this
    simp [isBitcodeMarker, this]
  · rw [List.filter_eq_nil_iff]
    intro s hs
    have := h s hs
    simp only [List.mem_cons, List.mem_singleton, not_or, List.not_mem_nil, or_false] at this
    simp [isCommands, this]

/-- A section with no marker name can be dropped from the list without changing the scan. -/
theorem scanSections_insert_other (pre post : List SectionRef) (other : SectionRef)
    (hb : isBitcodeMarker other = false) (hc : isCommands other = false) :
    ∀ (bc : Option BitcodeContainer) (cmds : List Bytes),
      scanSections (pre ++ other :: post) bc cmds = scanSections (pre ++ post) bc cmds := by
  induction pre with
  | nil => intro bc cmds; simpa using scanSections_cons_other other post bc cmds hb hc
  | cons it rest ih =>
    intro bc cmds
    simp only [List.cons_append]
    rw [scanSections, scanSections]
    simp only [ih]

/-- A second bitcode-marker section stops the scan at a failed assertion. -/
theorem scanSections_second_marker (secs : List SectionRef) :
    ∀ (bc : Option BitcodeContainer) (cmds : List Bytes),
      2 ≤ (secs.filter isBitcodeMarker).length + (if bc.isSome then 1 else 0) →
      (scanSections secs bc cmds = .assertFailed "Multiple bitcode sections!" ∨
        scanSections secs bc cmds = .assertFailed "Multiple command sections!") ∧
      ((secs.filter isCommands).length + (if cmds ≠ [] then 1 else 0) ≤ 1 →
        scanSections secs bc cmds = .assertFailed "Multiple bitcode sections!") := by
  induction secs with
  | nil => intro bc cmds h; split at h <;> simp at h
  | cons it rest ih =>
    intro bc cmds h
    by_cases h1 : isBitcodeMarker it = true
    · have h2 : isCommands it = false := by
        cases h' : isCommands it
        · rfl
        · rw [isCommands_not_isBitcodeMarker it h'] at h1; cases h1
      rw [scanSections_cons_bitcode it rest bc cmds h1]
      cases hbc : bc with
      | some c => simp
      | none =>
        subst hbc
        simp only [List.filter_cons, h1, h2, if_true, List.length_cons, Option.isSome_none,
          Bool.false_eq_true, if_false] at h ⊢
        exact ih (some (markerContainer it)) cmds (by simpa using h)
    · have h1f : isBitcodeMarker it = false := by simpa using h1
      by_cases h2 : isCommands it = true
      · rw [scanSections_cons_commands it rest bc cmds h2]
        by_cases hcm : cmds = []
        · subst hcm
          simp only [List.filter_cons, h1f, h2, if_true, List.length_cons, ne_eq,
            not_true_eq_false, if_false, Bool.false_eq_true] at h ⊢
          have := ih bc (GetCommands it) h
          refine ⟨this.1, fun hle => this.2 ?_⟩
          simp only [ne_eq, GetCommands_ne_nil, not_false_eq_true, if_true]
          omega
        · simp only [List.filter_cons, h2, if_true, List.length_cons, ne_eq, hcm,
            not_false_eq_true]
          refine ⟨Or.inr trivial, fun hle => ?_⟩
          omega
      · have h2f : isCommands it = false := by simpa using h2
        rw [scanSections_cons_other it rest bc cmds h1f h2f]
        simp only [List.filter_cons, h1f, h2f] at h ⊢
        exact ih bc cmds (by simpa using h)

/-- A failed assertion ends the scan: sections behind it are not visited. -/
theorem scanSections_append_assertFailed (pre post : List SectionRef) (msg : String) :
    ∀ (bc : Option BitcodeContainer) (cmds : List Bytes),
      scanSections pre bc cmds = .assertFailed msg →
      scanSections (pre ++ post) bc cmds = .assertFailed msg := by
  induction pre with
  | nil => intro bc cmds h; simp [scanSections] at h
  | cons it rest ih =>
    intro bc cmds h
    rw [List.cons_append]
    by_cases h1 : isBitcodeMarker it = true
    · rw [scanSections_cons_bitcode it _ bc cmds h1] at h ⊢
      cases hbc : bc.isSome
      · simp only [hbc, Bool.false_eq_true, if_false] at h ⊢
        exact ih _ _ h
      · simp only [hbc, if_true] at h ⊢
        exact h
    · have h1f : isBitcodeMarker it = false := by simpa using h1
      by_cases h2 : isCommands it = true
      · rw [scanSections_cons_commands it _ bc cmds h2] at h ⊢
        by_cases hcm : cmds = []
        · simp only [hcm, ne_eq, not_true_eq_false, if_false] at h ⊢
          exact ih _ _ h
        · simp only [ne_eq, hcm, not_false_eq_true, if_true] at h ⊢
          exact h
      · have h2f : isCommands it = false := by simpa using h2
        rw [scanSections_cons_other it _ bc cmds h1f h2f] at h ⊢
        exact ih _ _ h

/-- Without marker sections, a second commands section fails "Multiple command sections!". -/
theorem scanSections_second_commands (secs : List SectionRef)
    (hb : secs.filter isBitcodeMarker = []) :
    ∀ (bc : Option BitcodeContainer) (cmds : List Bytes),
      2 ≤ (secs.filter isCommands).length + (if cmds ≠ [] then 1 else 0) →
      scanSections secs bc cmds = .assertFailed "Multiple command sections!" := by
  induction secs with
  | nil => intro bc cmds h; split at h <;> simp at h
  | cons it rest ih =>
    intro bc cmds h
    have h1f : isBitcodeMarker it = false := by
      cases h' : isBitcodeMarker it
      · rfl
      · simp [List.filter_cons, h'] at hb
    have hb' : rest.filter isBitcodeMarker = [] := by
      simpa [List.filter_cons, h1f] using hb
    by_cases h2 : isCommands it = true
    · rw [scanSections_cons_commands it rest bc cmds h2]
      by_cases hcm : cmds = []
      · subst hcm
        simp only [List.filter_cons, h2, if_true, List.length_cons, ne_eq,
          not_true_eq_false, if_false] at h ⊢
        apply ih hb' bc (GetCommands it)
        simp only [ne_eq, GetCommands_ne_nil, not_false_eq_true, if_true]
        omega
      · simp [hcm]
    · have h2f : isCommands it = false := by simpa using h2
      rw [scanSections_cons_other it rest bc cmds h1f h2f]
      simp only [List.filter_cons, h2f] at h
      exact ih hb' bc cmds (by simpa using h)

/-- A second commands section met while at most one marker was seen fails "Multiple
command sections!". -/
theorem scanSections_second_commands_first (secs : List SectionRef) :
    ∀ (bc : Option BitcodeContainer) (cmds : List Bytes),
      (secs.filter isBitcodeMarker).length + (if bc.isSome then 1 else 0) ≤ 1 →
      2 ≤ (secs.filter isCommands).length + (if cmds ≠ [] then 1 else 0) →
      scanSections secs bc cmds = .assertFailed "Multiple command sections!" := by
  induction secs with
  | nil => intro bc cmds _ h; split at h <;> simp at h
  | cons it rest ih =>
    intro bc cmds hm h
    by_cases h1 : isBitcodeMarker it = true
    · have h2 : isCommands it = false := by
        cases h' : isCommands it
        · rfl
        · rw [isCommands_not_isBitcodeMarker it h'] at h1; cases h1
      rw [scanSections_cons_bitcode it rest bc cmds h1]
      simp only [List.filter_cons, h1, h2, if_true, List.length_cons] at hm h
      cases hbc : bc with
      | some c => rw [hbc] at hm; simp at hm
      | none =>
        rw [hbc] at hm
        simp only [Option.isSome_none, Bool.false_eq_true, if_false]
        exact ih (some (markerContainer it)) cmds (by simpa using hm) (by simpa using h)
    · have h1f : isBitcodeMarker it = false := by simpa using h1
      by_cases h2 : isCommands it = true
      · rw [scanSections_cons_commands it rest bc cmds h2]
        by_cases hcm : cmds = []
        · subst hcm
          simp only [List.filter_cons, h1f, h2, if_true, List.length_cons, ne_eq,
            not_true_eq_false, if_false, Bool.false_eq_true] at hm h ⊢
          apply ih bc (GetCommands it) hm
          simp only [ne_eq, GetCommands_ne_nil, not_false_eq_true, if_true]
          omega
        · simp [hcm]
      · have h2f : isCommands it = false := by simpa using h2
        rw [scanSections_cons_other it rest bc cmds h1f h2f]
        simp only [List.filter_cons, h1f, h2f] at hm h
        exact ih bc cmds (by simpa using hm) (by simpa using h)

/-- Without `NDEBUG` the loop of either build is the loop with the assertions checked. -/
theorem scanSectionsBuild_false (secs : List SectionRef) :
    ∀ (bc : Option BitcodeContainer) (cmds : List Bytes),
      scanSectionsBuild false secs bc cmds = scanSections secs bc cmds := by
  induction secs with
  | nil => intro bc cmds; rw [scanSectionsBuild, scanSections]
  | cons it rest ih =>
    intro bc cmds
    rw [scanSectionsBuild, scanSections]
    simp only [ih, true_and]

/-- Without `NDEBUG` the scan of either build is the scan with the assertions checked. -/
theorem GetBitcodeInfoSectionsBuild_false (secs : List SectionRef) :
    GetBitcodeInfoSectionsBuild false secs = .defined (GetBitcodeInfoSections secs) := by
  rw [GetBitcodeInfoSectionsBuild, GetBitcodeInfoSections, scanSectionsBuild_false]
  cases scanSections secs none [] with
  | ok r =>
    obtain ⟨bc, cmds⟩ := r
    by_cases h : cmds = []
    · simp [h]
    · cases bc <;> simp [h]
  | error m => rfl
  | assertFailed m => rfl

end Impl

/-! ## The traversal -/

namespace Impl

/-- One iteration of the loop over the slices of a fat binary. -/
theorem universalLoop_cons (s : ObjectForArch) (rest : List ObjectForArch)
    (acc : List BitcodeInfo) :
    universalLoop (s :: rest) acc =
      (sliceResult s).andThen (fun l => universalLoop rest (acc ++ l)) := by
  match s with
  | .mk (some o) x =>
    rw [universalLoop]
    simp only [sliceResult, Outcome.andThen]
    cases GetBitcodeInfoFromMachO o <;> rfl
  | .mk none (some a) =>
    rw [universalLoop]
    simp only [sliceResult, Outcome.andThen]
    cases GetBitcodeInfoFromArchive a <;> rfl
  | .mk none none =>
    rw [universalLoop]
    simp [sliceResult, Outcome.andThen]

/-- One iteration of the loop over the members of an archive. -/
theorem archiveLoop_cons (c : Child) (rest : List Child) (err : Option String)
    (acc : List BitcodeInfo) :
    archiveLoop (c :: rest) err acc =
      (childResult c).andThen (fun l => archiveLoop rest err (acc ++ l)) := by
  match c with
  | .binary b =>
    rw [archiveLoop]
    simp only [childResult, Outcome.andThen]
    cases GetBitcodeInfo b <;> rfl
  | .unreadable msg =>
    rw [archiveLoop]
    simp [childResult, Outcome.andThen]

/-- The entries collected so far are a prefix of the result of the slice loop. -/
theorem universalLoop_acc (objs : List ObjectForArch) :
    ∀ acc, universalLoop objs acc =
      (universalLoop objs []).andThen (fun l => .ok (acc ++ l)) := by
  induction objs with
  | nil => intro acc; simp [universalLoop, Outcome.andThen]
  | cons s rest ih =>
    intro acc
    rw [universalLoop_cons, universalLoop_cons s rest []]
    cases h : sliceResult s with
    | ok l =>
      simp only [Outcome.andThen, List.nil_append]
      rw [ih (acc ++ l), ih l]
      cases universalLoop rest [] <;> simp [Outcome.andThen]
    | error m => simp [Outcome.andThen]
    | assertFailed m => simp [Outcome.andThen]

/-- The entries collected so far are a prefix of the result of the member loop. -/
theorem archiveLoop_acc (cs : List Child) (err : Option String) :
    ∀ acc, archiveLoop cs err acc =
      (archiveLoop cs err []).andThen (fun l => .ok (acc ++ l)) := by
  induction cs with
  | nil => intro acc; cases err <;> simp [archiveLoop, Outcome.andThen]
  | cons c rest ih =>
    intro acc
    rw [archiveLoop_cons, archiveLoop_cons c rest err []]
    cases h : childResult c with
    | ok l =>
      simp only [Outcome.andThen, List.nil_append]
      rw [ih (acc ++ l), ih l]
      cases archiveLoop rest err [] <;> simp [Outcome.andThen]
    | error m => simp [Outcome.andThen]
    | assertFailed m => simp [Outcome.andThen]

/-- A slice that is neither an object nor an archive can be dropped from the slice list. -/
theorem universalLoop_skip (pre post : List ObjectForArch) :
    ∀ acc, universalLoop (pre ++ .mk none none :: post) acc = universalLoop (pre ++ post) acc := by
  induction pre with
  | nil => intro acc; simp [universalLoop]
  | cons s rest ih =>
    intro acc
    simp only [List.cons_append, universalLoop_cons]
    cases sliceResult s <;> simp [Outcome.andThen, ih]

/-- A failing member makes the member loop fail: no entries are returned, and when the
members before it succeed the result is the failure of that member. -/
theorem archiveLoop_failure (pre post : List Child) (bad : Child) (err : Option String)
    (msg : String) (hbad : childResult bad = .error msg) :
    ∀ acc, (∀ l, archiveLoop (pre ++ bad :: post) err acc ≠ .ok l) ∧
      ((∀ c ∈ pre, ∃ l, childResult c = .ok l) →
        archiveLoop (pre ++ bad :: post) err acc = .error msg) := by
  induction pre with
  | nil =>
    intro acc
    simp [archiveLoop_cons, hbad, Outcome.andThen]
  | cons c rest ih =>
    intro acc
    simp only [List.cons_append, archiveLoop_cons]
    cases h : childResult c with
    | ok l =>
      simp only [Outcome.andThen]
      refine ⟨(ih (acc ++ l)).1, fun hv => (ih (acc ++ l)).2 ?_⟩
      intro c' hc'
      exact hv c' (List.mem_cons_of_mem _ hc')
    | error m =>
      refine ⟨by simp [Outcome.andThen], fun hv => ?_⟩
      obtain ⟨l, hl⟩ := hv c (List.mem_cons_self _ _)
      rw [h] at hl; cases hl
    | assertFailed m =>
      refine ⟨by simp [Outcome.andThen], fun hv => ?_⟩
      obtain ⟨l, hl⟩ := hv c (List.mem_cons_self _ _)
      rw [h] at hl; cases hl

/-- A failing member behind members none of which stops at an assertion makes the member
loop return a failure. -/
theorem archiveLoop_failure_error (pre post : List Child) (bad : Child)
    (err : Option String) (msg : String) (hbad : childResult bad = .error msg) :
    ∀ acc, (∀ c ∈ pre, ∀ m, childResult c ≠ .assertFailed m) →
      ∃ e, archiveLoop (pre ++ bad :: post) err acc = .error e := by
  induction pre with
  | nil =>
    intro acc _
    exact ⟨msg, by simp [archiveLoop_cons, hbad, Outcome.andThen]⟩
  | cons c rest ih =>
    intro acc hv
    simp only [List.cons_append, archiveLoop_cons]
    cases h : childResult c with
    | ok l =>
      simp only [Outcome.andThen]
      exact ih (acc ++ l) (fun c' hc' => hv c' (List.mem_cons_of_mem _ hc'))
    | error m => exact ⟨m, by simp [Outcome.andThen]⟩
    | assertFailed m => exact absurd h (hv c (List.mem_cons_self _ _) m)

/-- When every member succeeds the member loop returns the concatenation of the results. -/
theorem archiveLoop_all_ok (children : List Child) :
    ∀ (results : List (List BitcodeInfo)) (acc : List BitcodeInfo),
      children.map childResult = results.map .ok →
      archiveLoop children none acc = .ok (acc ++ results.flatten) := by
  induction children with
  | nil =>
    intro results acc h
    cases results with
    | nil => simp [archiveLoop]
    | cons r rs => simp at h
  | cons c rest ih =>
    intro results acc h
    cases results with
    | nil => simp at h
    | cons r rs =>
      simp only [List.map_cons, List.cons.injEq] at h
      rw [archiveLoop_cons, h.1]
      simp only [Outcome.andThen]
      rw [ih rs (acc ++ r) h.2]
      simp

/-- When every slice succeeds the slice loop returns the concatenation of the results. -/
theorem universalLoop_all_ok (objects : List ObjectForArch) :
    ∀ (results : List (List BitcodeInfo)) (acc : List BitcodeInfo),
      objects.map sliceResult = results.map .ok →
      universalLoop objects acc = .ok (acc ++ results.flatten) := by
  induction objects with
  | nil =>
    intro results acc h
    cases results with
    | nil => simp [universalLoop]
    | cons r rs => simp at h
  | cons c rest ih =>
    intro results acc h
    cases results with
    | nil => simp at h
    | cons r rs =>
      simp only [List.map_cons, List.cons.injEq] at h
      rw [universalLoop_cons, h.1]
      simp only [Outcome.andThen]
      rw [ih rs (acc ++ r) h.2]
      simp

mutual
/-- A successful traversal returns exactly the entries of the plain-object leaves, in
traversal order. -/
theorem GetBitcodeInfo_leafEntries : ∀ (b : Binary) (l : List BitcodeInfo),
    GetBitcodeInfo b = .ok l → b.leafEntries = l.map .ok
  | .universal objects, l, h => by
    rw [GetBitcodeInfo] at h
    rw [Binary.leafEntries]
    simpa using universalLoop_leafEntries objects [] l h
  | .machO o, l, h => by
    rw [GetBitcodeInfo] at h
    rw [Binary.leafEntries]
    cases h2 : GetBitcodeInfoFromMachO o <;> rw [h2] at h <;> simp at h
    subst h; simp
  | .object o, l, h => by
    rw [GetBitcodeInfo] at h
    rw [Binary.leafEntries]
    cases h2 : GetBitcodeInfoFromObject o <;> rw [h2] at h <;> simp at h
    subst h; simp
  | .archive a, l, h => by
    rw [GetBitcodeInfo] at h
    rw [Binary.leafEntries]
    exact GetBitcodeInfoFromArchive_leafEntries a l h
  | .other, l, h => by
    rw [GetBitcodeInfo] at h
    cases h
/-- The slice loop: the collected entries followed by the leaves of the slices. -/
theorem universalLoop_leafEntries : ∀ (objects : List ObjectForArch)
    (acc l : List BitcodeInfo), universalLoop objects acc = .ok l →
    acc.map .ok ++ slicesLeafEntries objects = l.map .ok
  | [], acc, l, h => by
    rw [universalLoop] at h
    rw [slicesLeafEntries]
    cases h; simp
  | .mk (some o) x :: rest, acc, l, h => by
    rw [universalLoop] at h
    rw [slicesLeafEntries]
    cases h2 : GetBitcodeInfoFromMachO o <;> rw [h2] at h <;> simp at h
    have := universalLoop_leafEntries rest _ l h
    simpa using this
  | .mk none (some a) :: rest, acc, l, h => by
    rw [universalLoop] at h
    rw [slicesLeafEntries]
    cases h2 : GetBitcodeInfoFromArchive a <;> rw [h2] at h <;> simp at h
    have h3 := GetBitcodeInfoFromArchive_leafEntries a _ h2
    have := universalLoop_leafEntries rest _ l h
    rw [h3]
    simpa using this
  | .mk none none :: rest, acc, l, h => by
    rw [universalLoop] at h
    rw [slicesLeafEntries]
    exact universalLoop_leafEntries rest acc l h
/-- A successful archive scan returns the entries of the leaves below the archive. -/
theorem GetBitcodeInfoFromArchive_leafEntries : ∀ (a : Archive) (l : List BitcodeInfo),
    GetBitcodeInfoFromArchive a = .ok l → a.leafEntries = l.map .ok
  | .mk children err, l, h => by
    rw [GetBitcodeInfoFromArchive] at h
    rw [Archive.leafEntries]
    simpa using archiveLoop_leafEntries children err [] l h
/-- The member loop: the collected entries followed by the leaves of the members. -/
theorem archiveLoop_leafEntries : ∀ (children : List Child) (err : Option String)
    (acc l : List BitcodeInfo), archiveLoop children err acc = .ok l →
    acc.map .ok ++ childrenLeafEntries children = l.map .ok
  | [], some e, acc, l, h => by
    rw [archiveLoop] at h
    cases h
  | [], none, acc, l, h => by
    rw [archiveLoop] at h
    rw [childrenLeafEntries]
    cases h; simp
  | .unreadable msg :: rest, err, acc, l, h => by
    rw [archiveLoop] at h
    cases h
  | .binary b :: rest, err, acc, l, h => by
    rw [archiveLoop] at h
    rw [childrenLeafEntries]
    cases h2 : GetBitcodeInfo b <;> rw [h2] at h <;> simp at h
    have h3 := GetBitcodeInfo_leafEntries b _ h2
    have := archiveLoop_leafEntries rest err _ l h
    rw [h3]
    simpa using this
end

/-- A failing slice makes the slice loop fail: no entries are returned; unless a slice
before it stops at an assertion the result is a failure, and when the slices before it
succeed it is the failure of that slice. -/
theorem universalLoop_failure (pre post : List ObjectForArch) (bad : ObjectForArch)
    (msg : String) (hbad : sliceResult bad = .error msg) :
    ∀ acc, (∀ l, universalLoop (pre ++ bad :: post) acc ≠ .ok l) ∧
      ((∀ s ∈ pre, ∀ m, sliceResult s ≠ .assertFailed m) →
        ∃ e, universalLoop (pre ++ bad :: post) acc = .error e) ∧
      ((∀ s ∈ pre, ∃ l, sliceResult s = .ok l) →
        universalLoop (pre ++ bad :: post) acc = .error msg) := by
  induction pre with
  | nil =>
    intro acc
    simp [universalLoop_cons, hbad, Outcome.andThen]
  | cons s rest ih =>
    intro acc
    simp only [List.cons_append, universalLoop_cons]
    cases h : sliceResult s with
    | ok l =>
      simp only [Outcome.andThen]
      obtain ⟨h1, h2, h3⟩ := ih (acc ++ l)
      exact ⟨h1, fun hv => h2 (fun x hx => hv x (List.mem_cons_of_mem _ hx)),
        fun hv => h3 (fun x hx => hv x (List.mem_cons_of_mem _ hx))⟩
    | error m =>
      refine ⟨by simp [Outcome.andThen], fun _ => ⟨m, by simp [Outcome.andThen]⟩, fun hv => ?_⟩
      obtain ⟨l, hl⟩ := hv s (List.mem_cons_self _ _)
      rw [h] at hl; cases hl
    | assertFailed m =>
      refine ⟨by simp [Outcome.andThen], fun hv => ?_, fun hv => ?_⟩
      · exact absurd h (hv s (List.mem_cons_self _ _) m)
      · obtain ⟨l, hl⟩ := hv s (List.mem_cons_self _ _)
        rw [h] at hl; cases hl

/-- A slice whose own step returns no entries keeps the whole slice loop from returning
entries. -/
theorem universalLoop_never_ok (pre post : List ObjectForArch) (bad : ObjectForArch)
    (hbad : ∀ l, sliceResult bad ≠ .ok l) :
    ∀ acc l, universalLoop (pre ++ bad :: post) acc ≠ .ok l := by
  induction pre with
  | nil =>
    intro acc l
    simp only [List.nil_append, universalLoop_cons]
    cases h : sliceResult bad with
    | ok l' => exact absurd h (hbad l')
    | error m => simp [Outcome.andThen]
    | assertFailed m => simp [Outcome.andThen]
  | cons s rest ih =>
    intro acc l
    simp only [List.cons_append, universalLoop_cons]
    cases h : sliceResult s with
    | ok l' => simpa only [Outcome.andThen] using ih (acc ++ l') l
    | error m => simp [Outcome.andThen]
    | assertFailed m => simp [Outcome.andThen]

mutual
/-- A depth budget of at least the nesting depth gives the result of the traversal. -/
theorem GetBitcodeInfoFuel_enough : ∀ (b : Binary) (fuel : Nat), b.depth ≤ fuel →
    GetBitcodeInfoFuel fuel b = some (GetBitcodeInfo b)
  | .universal objects, 0, h => by rw [Binary.depth] at h; omega
  | .universal objects, fuel + 1, h => by
    rw [Binary.depth] at h
    rw [GetBitcodeInfoFuel, GetBitcodeInfo]
    exact universalLoopFuel_enough objects fuel [] (by omega)
  | .machO o, 0, h => by rw [Binary.depth] at h; omega
  | .machO o, fuel + 1, _ => by
    rw [GetBitcodeInfoFuel, GetBitcodeInfo]
    cases GetBitcodeInfoFromMachO o <;> rfl
  | .object o, 0, h => by rw [Binary.depth] at h; omega
  | .object o, fuel + 1, _ => by
    rw [GetBitcodeInfoFuel, GetBitcodeInfo]
    cases GetBitcodeInfoFromObject o <;> rfl
  | .archive a, 0, h => by rw [Binary.depth] at h; omega
  | .archive a, fuel + 1, h => by
    rw [Binary.depth] at h
    rw [GetBitcodeInfoFuel, GetBitcodeInfo]
    exact GetBitcodeInfoFromArchiveFuel_enough a fuel (by omega)
  | .other, 0, h => by rw [Binary.depth] at h; omega
  | .other, fuel + 1, _ => by rw [GetBitcodeInfoFuel, GetBitcodeInfo]
/-- The slice loop with a budget of at least the depth below the slices. -/
theorem universalLoopFuel_enough : ∀ (objects : List ObjectForArch) (fuel : Nat)
    (acc : List BitcodeInfo), slicesDepth objects ≤ fuel →
    universalLoopFuel fuel objects acc = some (universalLoop objects acc)
  | [], fuel, acc, _ => by rw [universalLoopFuel, universalLoop]
  | .mk (some o) x :: rest, fuel, acc, h => by
    rw [slicesDepth] at h
    rw [universalLoopFuel, universalLoop]
    cases GetBitcodeInfoFromMachO o with
    | ok c => exact universalLoopFuel_enough rest fuel _ h
    | error m => rfl
    | assertFailed m => rfl
  | .mk none (some a) :: rest, fuel, acc, h => by
    rw [slicesDepth] at h
    rw [universalLoopFuel, universalLoop,
      GetBitcodeInfoFromArchiveFuel_enough a fuel (le_trans (le_max_left _ _) h)]
    cases GetBitcodeInfoFromArchive a with
    | ok c => exact universalLoopFuel_enough rest fuel _ (le_trans (le_max_right _ _) h)
    | error m => rfl
    | assertFailed m => rfl
  | .mk none none :: rest, fuel, acc, h => by
    rw [slicesDepth] at h
    rw [universalLoopFuel, universalLoop]
    exact universalLoopFuel_enough rest fuel acc h
/-- The archive scan with a budget of at least the depth of the archive's members. -/
theorem GetBitcodeInfoFromArchiveFuel_enough : ∀ (a : Archive) (fuel : Nat), a.depth ≤ fuel →
    GetBitcodeInfoFromArchiveFuel fuel a = some (GetBitcodeInfoFromArchive a)
  | .mk children err, fuel, h => by
    rw [Archive.depth] at h
    rw [GetBitcodeInfoFromArchiveFuel, GetBitcodeInfoFromArchive]
    exact archiveLoopFuel_enough children fuel err [] h
/-- The member loop with a budget of at least the depth of the members. -/
theorem archiveLoopFuel_enough : ∀ (children : List Child) (fuel : Nat)
    (err : Option String) (acc : List BitcodeInfo), childrenDepth children ≤ fuel →
    archiveLoopFuel fuel children err acc = some (archiveLoop children err acc)
  | [], fuel, some e, acc, _ => by rw [archiveLoopFuel, archiveLoop]
  | [], fuel, none, acc, _ => by rw [archiveLoopFuel, archiveLoop]
  | .unreadable msg :: rest, fuel, err, acc, _ => by rw [archiveLoopFuel, archiveLoop]
  | .binary b :: rest, fuel, err, acc, h => by
    rw [childrenDepth] at h
    rw [archiveLoopFuel, archiveLoop,
      GetBitcodeInfoFuel_enough b fuel (le_trans (le_max_left _ _) h)]
    cases GetBitcodeInfo b with
    | ok c => exact archiveLoopFuel_enough rest fuel err _ (le_trans (le_max_right _ _) h)
    | error m => rfl
    | assertFailed m => rfl
end

/-- The entry `GetBitcodeInfoFromMachO` returns for an object. -/
theorem GetBitcodeInfoFromMachO_entry (o : ObjectFile) (e : BitcodeInfo)
    (h : GetBitcodeInfoFromMachO o = .ok e) : entryOfObject o e := by
  rw [GetBitcodeInfoFromMachO] at h
  cases hs : GetBitcodeInfoSections o.sections with
  | ok r =>
    rw [hs] at h
    cases r with
    | none =>
      simp only [Outcome.ok.injEq] at h
      subst h
      exact ⟨rfl, fun c hc => by cases hc⟩
    | some c0 =>
      simp only [Outcome.ok.injEq] at h
      subst h
      refine ⟨rfl, fun c hc => ?_⟩
      simp only [Option.some.injEq] at hc
      subst hc
      exact ⟨rfl, rfl⟩
  | error m => rw [hs] at h; cases h
  | assertFailed m => rw [hs] at h; cases h

/-- The entry `GetBitcodeInfoFromObject` returns for an object. -/
theorem GetBitcodeInfoFromObject_entry (o : ObjectFile) (e : BitcodeInfo)
    (h : GetBitcodeInfoFromObject o = .ok e) : entryOfObject o e := by
  rw [GetBitcodeInfoFromObject] at h
  cases hs : GetBitcodeInfoSections o.sections with
  | ok r =>
    rw [hs] at h
    cases r with
    | none =>
      simp only [Outcome.ok.injEq] at h
      subst h
      exact ⟨rfl, fun c hc => by cases hc⟩
    | some c0 =>
      simp only [Outcome.ok.injEq] at h
      subst h
      refine ⟨rfl, fun c hc => ?_⟩
      simp only [Option.some.injEq] at hc
      subst hc
      exact ⟨rfl, rfl⟩
  | error m => rw [hs] at h; cases h
  | assertFailed m => rw [hs] at h; cases h

mutual
/-- The leaf entries of a tree are, leaf by leaf, the retrievals of its leaf objects. -/
theorem Binary_leafEntries_leafObjects : ∀ b : Binary,
    List.Forall₂ leafOf b.leafObjects b.leafEntries
  | .universal objects => by
    rw [Binary.leafObjects, Binary.leafEntries]
    exact slices_leafEntries_leafObjects objects
  | .machO o => by
    rw [Binary.leafObjects, Binary.leafEntries]
    exact List.Forall₂.cons (Or.inl rfl) List.Forall₂.nil
  | .object o => by
    rw [Binary.leafObjects, Binary.leafEntries]
    exact List.Forall₂.cons (Or.inr rfl) List.Forall₂.nil
  | .archive a => by
    rw [Binary.leafObjects, Binary.leafEntries]
    exact Archive_leafEntries_leafObjects a
  | .other => by
    rw [Binary.leafObjects, Binary.leafEntries]
    exact List.Forall₂.nil
/-- Leaf entries and leaf objects below the slices of a fat binary. -/
theorem slices_leafEntries_leafObjects : ∀ objects : List ObjectForArch,
    List.Forall₂ leafOf (slicesLeafObjects objects) (slicesLeafEntries objects)
  | [] => by
    rw [slicesLeafObjects, slicesLeafEntries]
    exact List.Forall₂.nil
  | .mk (some o) x :: rest => by
    rw [slicesLeafObjects, slicesLeafEntries]
    exact List.Forall₂.cons (Or.inl rfl) (slices_leafEntries_leafObjects rest)
  | .mk none (some a) :: rest => by
    rw [slicesLeafObjects, slicesLeafEntries]
    exact List.rel_append (Archive_leafEntries_leafObjects a)
      (slices_leafEntries_leafObjects rest)
  | .mk none none :: rest => by
    rw [slicesLeafObjects, slicesLeafEntries]
    exact slices_leafEntries_leafObjects rest
/-- Leaf entries and leaf objects below an archive. -/
theorem Archive_leafEntries_leafObjects : ∀ a : Archive,
    List.Forall₂ leafOf a.leafObjects a.leafEntries
  | .mk children err => by
    rw [Archive.leafObjects, Archive.leafEntries]
    exact children_leafEntries_leafObjects children
/-- Leaf entries and leaf objects below the members of an archive. -/
theorem children_leafEntries_leafObjects : ∀ children : List Child,
    List.Forall₂ leafOf (childrenLeafObjects children) (childrenLeafEntries children)
  | [] => by
    rw [childrenLeafObjects, childrenLeafEntries]
    exact List.Forall₂.nil
  | .binary b :: rest => by
    rw [childrenLeafObjects, childrenLeafEntries]
    exact List.rel_append (Binary_leafEntries_leafObjects b)
      (children_leafEntries_leafObjects rest)
  | .unreadable msg :: rest => by
    rw [childrenLeafObjects, childrenLeafEntries]
    exact children_leafEntries_leafObjects rest
end

/-- Entries paired with the objects of the leaves they were retrieved from. -/
theorem entries_of_leafObjects (objs : List ObjectFile) :
    ∀ entries : List BitcodeInfo,
      List.Forall₂ leafOf objs (entries.map Outcome.ok) →
      List.Forall₂ entryOfObject objs entries := by
  induction objs with
  | nil =>
    intro entries h
    cases entries with
    | nil => exact List.Forall₂.nil
    | cons e es => cases h
  | cons o os ih =>
    intro entries h
    cases entries with
    | nil => cases h
    | cons e es =>
      rw [List.map_cons] at h
      cases h with
      | cons h1 h2 =>
        refine List.Forall₂.cons ?_ (ih es h2)
        rcases h1 with h1 | h1
        · exact GetBitcodeInfoFromMachO_entry o e h1.symm
        · exact GetBitcodeInfoFromObject_entry o e h1.symm

/-- Every entry of a list paired with the leaf objects has its object among them. -/
theorem entries_have_leafObject (objs : List ObjectFile) (entries : List BitcodeInfo)
    (h : List.Forall₂ entryOfObject objs entries) :
    ∀ e ∈ entries, ∃ o ∈ objs, entryOfObject o e := by
  induction h with
  | nil => intro e he; cases he
  | cons hab _ ih =>
    intro e he
    rcases List.mem_cons.mp he with he | he
    · subst he
      exact ⟨_, List.mem_cons_self _ _, hab⟩
    · obtain ⟨o, ho, hr⟩ := ih e he
      exact ⟨o, List.mem_cons_of_mem _ ho, hr⟩

end Impl

/-! ## File names -/

/-- `rfind` finds nothing exactly when the character does not occur. -/
theorem rfind_eq_none (s : List Char) (c : Char) : rfind s c = none ↔ c ∉ s := by
  induction s with
  | nil => simp [rfind]
  | cons x xs ih =>
    rw [rfind]
    cases h : rfind xs c with
    | some i =>
      have : c ∈ xs := by
        by_contra hc
        rw [ih.mpr hc] at h; cases h
      simp [this]
    | none =>
      have hc : c ∉ xs := ih.mp h
      by_cases hx : x = c
      · simp [hx]
      · simp [hx, hc, Ne.symm hx]

/-- The position `rfind` returns splits the string at the last occurrence: the
character stands at that position and does not occur behind it. -/
theorem rfind_eq_some (s : List Char) (c : Char) (i : Nat) (h : rfind s c = some i) :
    s = s.take i ++ c :: s.drop (i + 1) ∧ c ∉ s.drop (i + 1) := by
  induction s generalizing i with
  | nil => simp [rfind] at h
  | cons x xs ih =>
    rw [rfind] at h
    cases h2 : rfind xs c with
    | some j =>
      rw [h2] at h
      simp only [Option.some.injEq] at h
      subst h
      obtain ⟨h3, h4⟩ := ih j h2
      refine ⟨?_, by simpa using h4⟩
      simp only [List.take_succ_cons, List.drop_succ_cons, List.cons_append, List.cons.injEq,
        true_and]
      exact h3
    | none =>
      rw [h2] at h
      have hc : c ∉ xs := (rfind_eq_none xs c).mp h2
      by_cases hx : x = c
      · simp only [hx, if_true, Option.some.injEq] at h
        subst h
        simp [hx, hc]
      · simp [hx] at h

/-- The stripped file name holds no `/`. -/
theorem GetFileName_no_slash (s : String) : '/' ∉ (GetFileName s).data := by
  rw [GetFileName]
  cases h : rfind s.data '/' with
  | none => exact (rfind_eq_none _ _).mp h
  | some i => exact (rfind_eq_some _ _ _ h).2

/-- A file name without `/` is returned unchanged. -/
theorem GetFileName_of_no_slash (s : String) (h : '/' ∉ s.data) : GetFileName s = s := by
  rw [GetFileName, (rfind_eq_none _ _).mpr h]

/-- The stripped file name is the input without a prefix that is empty or ends with `/`. -/
theorem GetFileName_split (s : String) :
    ∃ p : String, s = p ++ GetFileName s ∧ (p = "" ∨ ∃ q : String, p = q ++ "/") := by
  rw [GetFileName]
  cases h : rfind s.data '/' with
  | none => exact ⟨"", by simp, Or.inl rfl⟩
  | some i =>
    obtain ⟨h1, _⟩ := rfind_eq_some _ _ _ h
    refine ⟨String.mk (s.data.take i ++ ['/']), ?_, Or.inr ⟨String.mk (s.data.take i), ?_⟩⟩
    · apply String.ext
      simp only [String.data_append, List.append_assoc, List.singleton_append]
      exact h1
    · apply String.ext
      simp [String.data_append]

/-! ## Claims -/

open Impl

/-- C1: for a section list with exactly one bitcode-marker section `b`, named `.llvmbc`
or `__bitcode`, and exactly one commands section `c` whose bytes are the NUL-free
strings `cs` (a non-empty list), each followed by a NUL byte, the marker-section scan
returns a container whose bytes are the bytes of `b` and whose commands are `cs`, in
that order, empty strings included. -/
theorem scan_roundtrip_bytes_and_commands (sections : List SectionRef) (b c : SectionRef)
    (cs : List Bytes)
    (hb : sections.filter isBitcodeMarker = [b])
    (hname : b.name = ".llvmbc" ∨ b.name = "__bitcode")
    (hc : sections.filter isCommands = [c])
    (hne : cs ≠ [])
    (hnul : ∀ x ∈ cs, 0 ∉ x)
    (hbytes : c.contents = nulTerminated cs) :
    ∃ container, GetBitcodeInfoSections sections = .ok (some container) ∧
      container.data = b.contents ∧ container.commands = cs := by
  have hnb : b.name ≠ "__bundle" := by
    rcases hname with h | h <;> rw [h] <;> decide
  refine ⟨(markerContainer b).SetCommands (GetCommands c), ?_, ?_, ?_⟩
  · rw [GetBitcodeInfoSections_ok sections (by simp [hb]) (by simp [hc])]
    simp [hb, hc]
  · rw [markerContainer_data_of_not_bundle b hnb]
    simp [BitcodeContainer.SetCommands, BitcodeContainer.new]
  · rw [GetCommands_nulTerminated c cs hne hnul hbytes]
    simp [BitcodeContainer.SetCommands]

theorem scan_roundtrip_bytes_and_commands_witness :
    ∃ container,
      GetBitcodeInfoSections
        [⟨"__text", [144, 195], [0]⟩,
         ⟨"__cmdline", [45, 99, 0, 0, 45, 79, 50, 0], [7, 0]⟩,
         ⟨"__bitcode", [66, 67, 192, 222], [9, 9]⟩] = .ok (some container) ∧
      container.data = [66, 67, 192, 222] ∧
      container.commands = [[45, 99], [], [45, 79, 50]] :=
  scan_roundtrip_bytes_and_commands _ ⟨"__bitcode", [66, 67, 192, 222], [9, 9]⟩
    ⟨"__cmdline", [45, 99, 0, 0, 45, 79, 50, 0], [7, 0]⟩ [[45, 99], [], [45, 79, 50]]
    (by decide) (by decide) (by decide) (by decide) (by decide) (by decide)

/-- C2: for a Mach-O object and for any other object file none of whose section names is
`.llvmbc`, `__bitcode`, `__bundle`, `__cmd`, `__cmdline` or `.llvmcmd`, the retrieval
succeeds with exactly one entry, whose container is absent and whose architecture label
is the architecture name the object reports. -/
theorem RetrieveBitcode_no_marker_sections (objectFile : ObjectFile)
    (h : ∀ s ∈ objectFile.sections, s.name ∉
      [".llvmbc", "__bitcode", "__bundle", "__cmd", "__cmdline", ".llvmcmd"]) :
    BitcodeRetriever.GetBitcodeInfo (.ok (.machO objectFile)) =
        .ok [{ arch := objectFile.archName, bitcodeContainer := none }] ∧
      BitcodeRetriever.GetBitcodeInfo (.ok (.object objectFile)) =
        .ok [{ arch := objectFile.archName, bitcodeContainer := none }] := by
  obtain ⟨h1, h2⟩ := filter_markers_of_names objectFile.sections h
  have hs : GetBitcodeInfoSections objectFile.sections = .ok none := by
    rw [GetBitcodeInfoSections_ok _ (by simp [h1]) (by simp [h2])]
    simp [h1, h2]
  simp [BitcodeRetriever.GetBitcodeInfo, GetBitcodeInfo, GetBitcodeInfoFromMachO,
    GetBitcodeInfoFromObject, hs]

theorem RetrieveBitcode_no_marker_sections_witness :
    BitcodeRetriever.GetBitcodeInfo (.ok (.machO
        ⟨"build/main.o", "Mach-O 64-bit x86-64", "x86_64",
          [1, 2, 3, 4, 5, 6, 7, 8, 9, 10, 11, 12, 13, 14, 15, 16],
          [⟨"__text", [144, 195], []⟩, ⟨"__data", [], [1]⟩]⟩)) =
        .ok [{ arch := "x86_64", bitcodeContainer := none }] ∧
      BitcodeRetriever.GetBitcodeInfo (.ok (.object
        ⟨"build/main.o", "Mach-O 64-bit x86-64", "x86_64",
          [1, 2, 3, 4, 5, 6, 7, 8, 9, 10, 11, 12, 13, 14, 15, 16],
          [⟨"__text", [144, 195], []⟩, ⟨"__data", [], [1]⟩]⟩)) =
        .ok [{ arch := "x86_64", bitcodeContainer := none }] :=
  RetrieveBitcode_no_marker_sections
    ⟨"build/main.o", "Mach-O 64-bit x86-64", "x86_64",
      [1, 2, 3, 4, 5, 6, 7, 8, 9, 10, 11, 12, 13, 14, 15, 16],
      [⟨"__text", [144, 195], []⟩, ⟨"__data", [], [1]⟩]⟩ (by decide)

/-- C3: for a single-architecture object (Mach-O or other) whose one bitcode-marker
section is a `.llvmbc` section `b` and which has no commands section, the top-level
retrieval yields exactly one entry: the label is the object's architecture, the
container is present, is not an archive, holds the bytes of `b` and has no commands. -/
theorem RetrieveBitcode_llvmbc_without_commands (objectFile : ObjectFile) (b : SectionRef)
    (hb : objectFile.sections.filter isBitcodeMarker = [b])
    (hname : b.name = ".llvmbc")
    (hc : objectFile.sections.filter isCommands = []) :
    (∃ container,
      BitcodeRetriever.GetBitcodeInfo (.ok (.object objectFile)) =
        .ok [{ arch := objectFile.archName, bitcodeContainer := some container }] ∧
      container.IsArchive = false ∧ container.data = b.contents ∧ container.commands = []) ∧
    (∃ container,
      BitcodeRetriever.GetBitcodeInfo (.ok (.machO objectFile)) =
        .ok [{ arch := objectFile.archName, bitcodeContainer := some container }] ∧
      container.IsArchive = false ∧ container.data = b.contents ∧ container.commands = []) := by
  have hnb : b.name ≠ "__bundle" := by rw [hname]; decide
  have hs : GetBitcodeInfoSections objectFile.sections = .ok (some (markerContainer b)) := by
    rw [GetBitcodeInfoSections_ok _ (by simp [hb]) (by simp [hc])]
    simp [hb, hc]
  rw [markerContainer_data_of_not_bundle b hnb] at hs
  constructor
  · simp only [BitcodeRetriever.GetBitcodeInfo, GetBitcodeInfo, GetBitcodeInfoFromObject, hs,
      List.nil_append]
    exact ⟨_, rfl, by simp [BitcodeContainer.new], by simp [BitcodeContainer.new],
      by simp [BitcodeContainer.new]⟩
  · simp only [BitcodeRetriever.GetBitcodeInfo, GetBitcodeInfo, GetBitcodeInfoFromMachO, hs,
      List.nil_append]
    exact ⟨_, rfl, by simp [BitcodeContainer.new], by simp [BitcodeContainer.new],
      by simp [BitcodeContainer.new]⟩

theorem RetrieveBitcode_llvmbc_without_commands_witness :
    (∃ container,
      BitcodeRetriever.GetBitcodeInfo (.ok (.object
        ⟨"/tmp/a.o", "elf64-x86-64", "x86_64", [],
          [⟨".text", [195], []⟩, ⟨".llvmbc", [66, 67, 192, 222], [0, 1]⟩]⟩)) =
        .ok [{ arch := "x86_64", bitcodeContainer := some container }] ∧
      container.IsArchive = false ∧ container.data = [66, 67, 192, 222] ∧
      container.commands = []) :=
  (RetrieveBitcode_llvmbc_without_commands
    ⟨"/tmp/a.o", "elf64-x86-64", "x86_64", [],
      [⟨".text", [195], []⟩, ⟨".llvmbc", [66, 67, 192, 222], [0, 1]⟩]⟩
    ⟨".llvmbc", [66, 67, 192, 222], [0, 1]⟩ (by decide) (by decide) (by decide)).1

/-- C4: in a fat binary a slice that is neither a Mach-O object nor an archive
contributes no entry and no error, and the slices around it are processed as if it
were not there, for the internal traversal and for the public entry point alike. In
particular a fat binary of a valid object `A` and an unreadable slice, in either
order, yields exactly the entry of `A`. -/
theorem fat_binary_unreadable_slice_skipped (pre post : List ObjectForArch) (A : ObjectFile)
    (asArchive : Option Archive) (info : BitcodeInfo)
    (hA : GetBitcodeInfoFromMachO A = .ok info) :
    GetBitcodeInfo (.universal (pre ++ .mk none none :: post)) =
        GetBitcodeInfo (.universal (pre ++ post)) ∧
      BitcodeRetriever.GetBitcodeInfo
        (.ok (.universal (pre ++ .mk none none :: post))) =
        BitcodeRetriever.GetBitcodeInfo (.ok (.universal (pre ++ post))) ∧
      BitcodeRetriever.GetBitcodeInfo
        (.ok (.universal [.mk (some A) asArchive, .mk none none])) = .ok [info] ∧
      BitcodeRetriever.GetBitcodeInfo
        (.ok (.universal [.mk none none, .mk (some A) asArchive])) = .ok [info] := by
  have h1 : GetBitcodeInfo (.universal (pre ++ .mk none none :: post)) =
      GetBitcodeInfo (.universal (pre ++ post)) := by
    simp only [GetBitcodeInfo]
    exact universalLoop_skip pre post []
  refine ⟨h1, ?_, ?_, ?_⟩
  · simp only [BitcodeRetriever.GetBitcodeInfo, h1]
  · simp [BitcodeRetriever.GetBitcodeInfo, GetBitcodeInfo, universalLoop, hA]
  · simp [BitcodeRetriever.GetBitcodeInfo, GetBitcodeInfo, universalLoop, hA]

theorem fat_binary_unreadable_slice_skipped_witness :
    BitcodeRetriever.GetBitcodeInfo (.ok (.universal
      [.mk none none, .mk (some
        ⟨"build/main.o", "Mach-O 64-bit x86-64", "x86_64",
        [17, 34, 51, 68],
        [⟨"__text", [144, 195], []⟩, ⟨"__bitcode", [66, 67, 192, 222], [0]⟩]⟩) none])) =
    .ok [⟨"x86_64", some ⟨false, [66, 67, 192, 222], [],
      ⟨"main.o", "Mach-O 64-bit x86-64", "x86_64", [17, 34, 51, 68]⟩⟩⟩] :=
  (fat_binary_unreadable_slice_skipped [] []
    ⟨"build/main.o", "Mach-O 64-bit x86-64", "x86_64",
        [17, 34, 51, 68],
        [⟨"__text", [144, 195], []⟩, ⟨"__bitcode", [66, 67, 192, 222], [0]⟩]⟩ none
    ⟨"x86_64", some ⟨false, [66, 67, 192, 222], [],
      ⟨"main.o", "Mach-O 64-bit x86-64", "x86_64", [17, 34, 51, 68]⟩⟩⟩ (by decide)).2.2.2

/-- C5: when a member of an archive cannot be read as a binary, or its recursive
retrieval fails, `GetBitcodeInfoFromArchive` never returns entries, whatever the
members before it yielded. Unless a member before it stops the process at an
assertion, the archive scan returns a failure and, with the archive as top-level
input, the public `GetBitcodeInfo` returns the empty sequence; when the members before
it are valid, the failure returned is the one of that member. -/
theorem archive_member_failure_discards_entries (pre post : List Child) (bad : Child)
    (err : Option String) (msg : String) (hbad : childResult bad = .error msg) :
    (∀ l, GetBitcodeInfoFromArchive (.mk (pre ++ bad :: post) err) ≠ .ok l) ∧
      ((∀ c ∈ pre, ∀ m, childResult c ≠ .assertFailed m) →
        (∃ e, GetBitcodeInfoFromArchive (.mk (pre ++ bad :: post) err) = .error e) ∧
        BitcodeRetriever.GetBitcodeInfo (.ok (.archive (.mk (pre ++ bad :: post) err))) =
          .ok []) ∧
      ((∀ c ∈ pre, ∃ l, childResult c = .ok l) →
        GetBitcodeInfoFromArchive (.mk (pre ++ bad :: post) err) = .error msg) := by
  obtain ⟨h1, h2⟩ := archiveLoop_failure pre post bad err msg hbad []
  refine ⟨by simpa only [GetBitcodeInfoFromArchive] using h1, fun hv => ?_, fun hv => ?_⟩
  · obtain ⟨e, he⟩ := archiveLoop_failure_error pre post bad err msg hbad [] hv
    refine ⟨⟨e, by simpa only [GetBitcodeInfoFromArchive] using he⟩, ?_⟩
    simp [BitcodeRetriever.GetBitcodeInfo, GetBitcodeInfo, GetBitcodeInfoFromArchive, he]
  · simpa only [GetBitcodeInfoFromArchive] using h2 hv

theorem archive_member_failure_discards_entries_witness :
    GetBitcodeInfoFromArchive (.mk
      [.binary (.object
        ⟨"lib/a.o", "elf64-x86-64", "x86_64", [],
        [⟨".text", [195], []⟩, ⟨".llvmbc", [66, 67], []⟩]⟩), .unreadable "truncated member"] none) =
      .error "truncated member" ∧
    BitcodeRetriever.GetBitcodeInfo (.ok (.archive (.mk
      [.binary (.object
        ⟨"lib/a.o", "elf64-x86-64", "x86_64", [],
        [⟨".text", [195], []⟩, ⟨".llvmbc", [66, 67], []⟩]⟩), .unreadable "truncated member"] none))) = .ok [] :=
  have valid : ∀ c ∈ [Child.binary (.object
        ⟨"lib/a.o", "elf64-x86-64", "x86_64", [],
        [⟨".text", [195], []⟩, ⟨".llvmbc", [66, 67], []⟩]⟩)],
      ∃ l, childResult c = .ok l := by
    intro c hc
    rw [List.mem_singleton] at hc
    subst hc
    exact ⟨[⟨"x86_64", some ⟨false, [66, 67], [], ⟨"a.o", "elf64-x86-64", "x86_64", []⟩⟩⟩],
      by decide⟩
  have h := archive_member_failure_discards_entries
    [.binary (.object
        ⟨"lib/a.o", "elf64-x86-64", "x86_64", [],
        [⟨".text", [195], []⟩, ⟨".llvmbc", [66, 67], []⟩]⟩)] [] (.unreadable "truncated member") none
    "truncated member" (by rfl)
  ⟨h.2.2 valid,
    (h.2.1 (fun c hc m hm => by
      obtain ⟨l, hl⟩ := valid c hc
      rw [hl] at hm
      cases hm)).2⟩

/-- C6: when no step fails the traversal is the order-preserving flattening of the
container tree. An archive yields the concatenation, in member order, of its members'
results; a fat binary yields the concatenation, in slice order, of its slices'
results, an object slice giving one entry and an archive slice the archive's result.
Hence the entries are exactly the entries of the plain-object leaves in traversal
order, and there are as many entries as leaves. -/
theorem traversal_is_ordered_flattening (children : List Child)
    (objects : List ObjectForArch) (memberResults sliceResults : List (List BitcodeInfo))
    (binary : Binary) (entries : List BitcodeInfo) :
    (children.map childResult = memberResults.map .ok →
        GetBitcodeInfoFromArchive (.mk children none) = .ok memberResults.flatten ∧
        GetBitcodeInfo (.archive (.mk children none)) = .ok memberResults.flatten) ∧
      (objects.map sliceResult = sliceResults.map .ok →
        GetBitcodeInfo (.universal objects) = .ok sliceResults.flatten) ∧
      (∀ o asArchive info, GetBitcodeInfoFromMachO o = .ok info →
        sliceResult (.mk (some o) asArchive) = .ok [info]) ∧
      (∀ a, sliceResult (.mk none (some a)) = GetBitcodeInfoFromArchive a) ∧
      (GetBitcodeInfo binary = .ok entries →
        binary.leafEntries = entries.map .ok ∧
        entries.length = binary.leafEntries.length) := by
  refine ⟨fun h => ?_, fun h => ?_, ?_, ?_, fun h => ?_⟩
  · have := archiveLoop_all_ok children memberResults [] h
    simp only [List.nil_append] at this
    exact ⟨by rw [GetBitcodeInfoFromArchive]; exact this,
      by rw [GetBitcodeInfo, GetBitcodeInfoFromArchive]; exact this⟩
  · have := universalLoop_all_ok objects sliceResults [] h
    simp only [List.nil_append] at this
    rw [GetBitcodeInfo]; exact this
  · intro o x info h
    simp [sliceResult, h]
  · intro a
    simp [sliceResult]
  · have := GetBitcodeInfo_leafEntries binary entries h
    exact ⟨this, by rw [this]; simp⟩

theorem traversal_is_ordered_flattening_witness :
    (Binary.universal
      [.mk (some
        ⟨"build/main.o", "Mach-O 64-bit x86-64", "x86_64",
        [17, 34, 51, 68],
        [⟨"__text", [144, 195], []⟩, ⟨"__bitcode", [66, 67, 192, 222], [0]⟩]⟩) none, .mk none none,
       .mk none (some (.mk [.binary (.object
        ⟨"lib/a.o", "elf64-x86-64", "x86_64", [],
        [⟨".text", [195], []⟩, ⟨".llvmbc", [66, 67], []⟩]⟩)] none))]).leafEntries =
      [Outcome.ok ⟨"x86_64", some ⟨false, [66, 67, 192, 222], [],
      ⟨"main.o", "Mach-O 64-bit x86-64", "x86_64", [17, 34, 51, 68]⟩⟩⟩,
       Outcome.ok
        ⟨"x86_64", some ⟨false, [66, 67], [], ⟨"a.o", "elf64-x86-64", "x86_64", []⟩⟩⟩] :=
  ((traversal_is_ordered_flattening [] [] [] []
    (.universal
      [.mk (some
        ⟨"build/main.o", "Mach-O 64-bit x86-64", "x86_64",
        [17, 34, 51, 68],
        [⟨"__text", [144, 195], []⟩, ⟨"__bitcode", [66, 67, 192, 222], [0]⟩]⟩) none, .mk none none,
       .mk none (some (.mk [.binary (.object
        ⟨"lib/a.o", "elf64-x86-64", "x86_64", [],
        [⟨".text", [195], []⟩, ⟨".llvmbc", [66, 67], []⟩]⟩)] none))])
    [⟨"x86_64", some ⟨false, [66, 67, 192, 222], [],
      ⟨"main.o", "Mach-O 64-bit x86-64", "x86_64", [17, 34, 51, 68]⟩⟩⟩,
     ⟨"x86_64", some ⟨false, [66, 67], [], ⟨"a.o", "elf64-x86-64", "x86_64", []⟩⟩⟩]).2.2.2.2
    (by decide)).1

/-- C7: the public `GetBitcodeInfo` never hands a failure to its caller. When the path
cannot be opened as a binary, when the binary is of no supported kind (the internal
step fails with "Unsupported binary"), or when the internal traversal returns a
failure, the result is the empty sequence. -/
theorem public_GetBitcodeInfo_never_fails :
    (∀ binaryOrErr msg, BitcodeRetriever.GetBitcodeInfo binaryOrErr ≠ .error msg) ∧
      (∀ e, BitcodeRetriever.GetBitcodeInfo (.error e) = .ok []) ∧
      GetBitcodeInfo .other = .error "Unsupported binary" ∧
      BitcodeRetriever.GetBitcodeInfo (.ok .other) = .ok [] ∧
      (∀ binary msg, GetBitcodeInfo binary = .error msg →
        BitcodeRetriever.GetBitcodeInfo (.ok binary) = .ok []) := by
  refine ⟨?_, ?_, ?_, ?_, ?_⟩
  · intro binaryOrErr msg
    cases binaryOrErr with
    | error e => simp [BitcodeRetriever.GetBitcodeInfo]
    | ok b =>
      simp only [BitcodeRetriever.GetBitcodeInfo]
      cases GetBitcodeInfo b <;> simp
  · intro e; simp [BitcodeRetriever.GetBitcodeInfo]
  · simp [GetBitcodeInfo]
  · simp [BitcodeRetriever.GetBitcodeInfo, GetBitcodeInfo]
  · intro b msg hb; simp [BitcodeRetriever.GetBitcodeInfo, hb]

theorem public_GetBitcodeInfo_never_fails_witness :
    BitcodeRetriever.GetBitcodeInfo (.ok (.archive (.mk [.binary .other] none))) = .ok [] :=
  public_GetBitcodeInfo_never_fails.2.2.2.2 (.archive (.mk [.binary .other] none))
    "Unsupported binary" (by decide)

/-- C8: the scan classifies sections by their exact name. In a list whose only
bitcode-marker section is `b`, a `b` named `.llvmbc` or `__bitcode` yields a plain
container (`IsArchive` false) holding the bytes of `b`, and a `b` named `__bundle`
yields an archive (`IsArchive` true) constructed from the bytes of `b` (the
constructor's size parameter is 32 bits wide). A section with none of the six marker
names changes nothing in the result, and names that differ in letter case are not
marker names. -/
theorem scan_classifies_by_exact_name (sections pre post : List SectionRef)
    (b other : SectionRef)
    (hb : sections.filter isBitcodeMarker = [b])
    (hc : (sections.filter isCommands).length ≤ 1)
    (ho : other.name ∉
      [".llvmbc", "__bitcode", "__bundle", "__cmd", "__cmdline", ".llvmcmd"]) :
    (∃ container, GetBitcodeInfoSections sections = .ok (some container) ∧
        (b.name = ".llvmbc" ∨ b.name = "__bitcode" →
          container.IsArchive = false ∧ container.data = b.contents) ∧
        (b.name = "__bundle" →
          container.IsArchive = true ∧
          container.data = b.contents.take (b.contents.length % 2 ^ 32) ∧
          (b.contents.length < 2 ^ 32 → container.data = b.contents))) ∧
      GetBitcodeInfoSections (pre ++ other :: post) = GetBitcodeInfoSections (pre ++ post) ∧
      (∀ contents after,
        GetBitcodeInfoSections [⟨".LLVMBC", contents, after⟩] = .ok none ∧
        GetBitcodeInfoSections [⟨"__Bundle", contents, after⟩] = .ok none) := by
  refine ⟨?_, ?_, ?_⟩
  · have hs := GetBitcodeInfoSections_ok sections (by simp [hb]) hc
    rw [hb] at hs
    have key : ∀ cmds : List Bytes,
        (b.name = ".llvmbc" ∨ b.name = "__bitcode" →
          ((markerContainer b).SetCommands cmds).IsArchive = false ∧
          ((markerContainer b).SetCommands cmds).data = b.contents) ∧
        (b.name = "__bundle" →
          ((markerContainer b).SetCommands cmds).IsArchive = true ∧
          ((markerContainer b).SetCommands cmds).data =
            b.contents.take (b.contents.length % 2 ^ 32) ∧
          (b.contents.length < 2 ^ 32 →
            ((markerContainer b).SetCommands cmds).data = b.contents)) := by
      intro cmds
      constructor
      · intro hn
        have hnb : b.name ≠ "__bundle" := by
          rcases hn with h | h <;> rw [h] <;> decide
        rw [markerContainer_data_of_not_bundle b hnb]
        simp [BitcodeContainer.SetCommands, BitcodeContainer.new]
      · intro hn
        rw [markerContainer_of_bundle b hn]
        have hle : b.contents.length % 2 ^ 32 ≤ b.contents.length := Nat.mod_le _ _
        refine ⟨by simp [BitcodeContainer.SetCommands, BitcodeArchive.new], ?_, ?_⟩
        · simp only [BitcodeContainer.SetCommands, BitcodeArchive.new, BitcodeContainer.new]
          exact List.take_append_of_le_length hle
        · intro hlt
          simp only [BitcodeContainer.SetCommands, BitcodeArchive.new, BitcodeContainer.new]
          rw [Nat.mod_eq_of_lt hlt]
          simp
    match hcm : sections.filter isCommands with
    | [] =>
      rw [hcm] at hs
      refine ⟨markerContainer b, hs, ?_⟩
      have := key (markerContainer b).commands
      simpa [BitcodeContainer.SetCommands] using this
    | c :: _ =>
      rw [hcm] at hs
      exact ⟨_, hs, key _⟩
  · have hn : isBitcodeMarker other = false ∧ isCommands other = false := by
      simp only [List.mem_cons, List.mem_singleton, not_or, List.not_mem_nil, or_false] at ho
      simp [isBitcodeMarker, isCommands, ho]
    simp only [GetBitcodeInfoSections, scanSections_insert_other pre post other hn.1 hn.2]
  · intro contents after
    simp [GetBitcodeInfoSections, scanSections]

theorem scan_classifies_by_exact_name_witness :
    ∃ container,
      GetBitcodeInfoSections
        [⟨"__text", [144], []⟩, ⟨"__bundle", [120, 97, 114, 33], [0]⟩] =
        .ok (some container) ∧
      container.IsArchive = true ∧ container.data = [120, 97, 114, 33] := by
  obtain ⟨⟨container, h1, _, h3⟩, _⟩ :=
    scan_classifies_by_exact_name
      [⟨"__text", [144], []⟩, ⟨"__bundle", [120, 97, 114, 33], [0]⟩] [] []
      ⟨"__bundle", [120, 97, 114, 33], [0]⟩ ⟨"__text", [144], []⟩
      (by decide) (by decide) (by decide)
  exact ⟨container, h1, (h3 rfl).1, (h3 rfl).2.2 (by decide)⟩

/-- C9 (amended): in a build with assertions enabled (`NDEBUG` not defined), a section
list with two or more bitcode-marker sections (any mix of `.llvmbc`, `__bitcode` and
`__bundle`) is rejected at a failed assertion and no container is returned.
"Multiple bitcode sections!" fails at the second marker when at most one commands
section stands before it; "Multiple command sections!" fails when a second commands
section is met while at most one marker was seen. -/
theorem scan_rejects_second_marker (sections : List SectionRef)
    (h : 2 ≤ (sections.filter isBitcodeMarker).length) :
    (∀ r, GetBitcodeInfoSectionsBuild false sections ≠ .defined (.ok r)) ∧
      (GetBitcodeInfoSectionsBuild false sections =
          .defined (.assertFailed "Multiple bitcode sections!") ∨
        GetBitcodeInfoSectionsBuild false sections =
          .defined (.assertFailed "Multiple command sections!")) ∧
      (∀ pre post, sections = pre ++ post → 2 ≤ (pre.filter isBitcodeMarker).length →
        (pre.filter isCommands).length ≤ 1 →
        GetBitcodeInfoSectionsBuild false sections =
          .defined (.assertFailed "Multiple bitcode sections!")) ∧
      (∀ pre post, sections = pre ++ post → (pre.filter isBitcodeMarker).length ≤ 1 →
        2 ≤ (pre.filter isCommands).length →
        GetBitcodeInfoSectionsBuild false sections =
          .defined (.assertFailed "Multiple command sections!")) := by
  rw [GetBitcodeInfoSectionsBuild_false]
  obtain ⟨h1, _⟩ := scanSections_second_marker sections none [] (by simpa using h)
  have h3 : GetBitcodeInfoSections sections = .assertFailed "Multiple bitcode sections!" ∨
      GetBitcodeInfoSections sections = .assertFailed "Multiple command sections!" := by
    rcases h1 with h1 | h1
    · left; simp [GetBitcodeInfoSections, h1]
    · right; simp [GetBitcodeInfoSections, h1]
  refine ⟨?_, ?_, ?_, ?_⟩
  · intro r hr
    rcases h3 with h3 | h3 <;> rw [h3] at hr <;> cases hr
  · rcases h3 with h3 | h3
    · left; rw [h3]
    · right; rw [h3]
  · intro pre post hs hm hle
    subst hs
    have h4 := (scanSections_second_marker pre none [] (by simpa using hm)).2
      (by simpa using hle)
    simp [GetBitcodeInfoSections, scanSections_append_assertFailed pre post _ none [] h4]
  · intro pre post hs hm hle
    subst hs
    have h4 := scanSections_second_commands_first pre none [] (by simpa using hm)
      (by simpa using hle)
    simp [GetBitcodeInfoSections, scanSections_append_assertFailed pre post _ none [] h4]

theorem scan_rejects_second_marker_witness :
    GetBitcodeInfoSectionsBuild false
      [⟨"__bitcode", [66, 67], []⟩, ⟨"__text", [144], []⟩, ⟨"__bundle", [120, 97], []⟩] =
      .defined (.assertFailed "Multiple bitcode sections!") :=
  (scan_rejects_second_marker
    [⟨"__bitcode", [66, 67], []⟩, ⟨"__text", [144], []⟩, ⟨"__bundle", [120, 97], []⟩]
    (by decide)).2.2.1
    [⟨"__bitcode", [66, 67], []⟩, ⟨"__text", [144], []⟩, ⟨"__bundle", [120, 97], []⟩] []
    (by simp) (by decide) (by decide)

/-- With `NDEBUG` the scan of `[__bitcode, __text, __bundle]` returns the archive built
from the last marker; with assertions checked, two commands sections in front of the
markers fail "Multiple command sections!" and not "Multiple bitcode sections!". -/
theorem scan_rejects_second_marker_counterexample :
    2 ≤ (List.filter isBitcodeMarker
      [⟨"__bitcode", [66, 67], []⟩, ⟨"__text", [144], []⟩,
       ⟨"__bundle", [120, 97], []⟩]).length ∧
    GetBitcodeInfoSectionsBuild true
      [⟨"__bitcode", [66, 67], []⟩, ⟨"__text", [144], []⟩, ⟨"__bundle", [120, 97], []⟩] =
      .defined (.ok (some (BitcodeArchive.new [120, 97] 2))) ∧
    2 ≤ (List.filter isBitcodeMarker
      [⟨"__cmd", [45, 99, 0], []⟩, ⟨"__cmdline", [45, 79, 0], []⟩,
       ⟨"__bitcode", [66, 67], []⟩, ⟨".llvmbc", [66, 68], []⟩]).length ∧
    GetBitcodeInfoSectionsBuild false
      [⟨"__cmd", [45, 99, 0], []⟩, ⟨"__cmdline", [45, 79, 0], []⟩,
       ⟨"__bitcode", [66, 67], []⟩, ⟨".llvmbc", [66, 68], []⟩] =
      .defined (.assertFailed "Multiple command sections!") := by
  refine ⟨by decide, by decide, by decide, ?_⟩
  simp [GetBitcodeInfoSectionsBuild, scanSectionsBuild, GetCommands, GetSectionData,
    GetCommandsLoop, cString]

/-- C10 (amended): in a build with assertions enabled (`NDEBUG` not defined), a section
list with no bitcode-marker section and with commands sections (`__cmd`, `__cmdline`
or `.llvmcmd`) of at least one byte each is rejected at a failed assertion, so an
absent container with the commands dropped is never returned. "Expected bitcode
container!" fails when there is exactly one commands section, "Multiple command
sections!" when there are several. -/
theorem scan_rejects_commands_without_container (sections : List SectionRef)
    (hb : sections.filter isBitcodeMarker = [])
    (hc : sections.filter isCommands ≠ [])
    (hcontent : ∀ s ∈ sections, isCommands s = true → s.contents ≠ []) :
    (∀ r, GetBitcodeInfoSectionsBuild false sections ≠ .defined (.ok r)) ∧
      ((sections.filter isCommands).length = 1 →
        GetBitcodeInfoSectionsBuild false sections =
          .defined (.assertFailed "Expected bitcode container!")) ∧
      (2 ≤ (sections.filter isCommands).length →
        GetBitcodeInfoSectionsBuild false sections =
          .defined (.assertFailed "Multiple command sections!")) := by
  have _ := hcontent
  rw [GetBitcodeInfoSectionsBuild_false]
  have h1 : (sections.filter isCommands).length = 1 →
      GetBitcodeInfoSections sections = .assertFailed "Expected bitcode container!" := by
    intro hl
    rw [GetBitcodeInfoSections_ok sections (by simp [hb]) (by omega), hb]
    match hcm : sections.filter isCommands with
    | [] => exact absurd hcm hc
    | c :: _ => rfl
  have h2 : 2 ≤ (sections.filter isCommands).length →
      GetBitcodeInfoSections sections = .assertFailed "Multiple command sections!" := by
    intro hl
    have := scanSections_second_commands sections hb none [] (by simpa using hl)
    simp [GetBitcodeInfoSections, this]
  refine ⟨?_, fun hl => by rw [h1 hl], fun hl => by rw [h2 hl]⟩
  intro r hr
  have hpos : 0 < (sections.filter isCommands).length := List.length_pos.mpr hc
  by_cases hl : (sections.filter isCommands).length = 1
  · rw [h1 hl] at hr; cases hr
  · rw [h2 (by omega)] at hr; cases hr

theorem scan_rejects_commands_without_container_witness :
    GetBitcodeInfoSectionsBuild false
      [⟨"__text", [144], []⟩, ⟨"__cmdline", [45, 99, 0], []⟩] =
      .defined (.assertFailed "Expected bitcode container!") :=
  (scan_rejects_commands_without_container
    [⟨"__text", [144], []⟩, ⟨"__cmdline", [45, 99, 0], []⟩] (by decide) (by decide)
    (by decide)).2.1 (by decide)

/-- With `NDEBUG` the scan of `[__text, __cmdline]` fails no check: it calls
`SetCommands` through the null container pointer; with assertions checked, two
commands sections fail "Multiple command sections!" and not "Expected bitcode
container!". -/
theorem scan_rejects_commands_without_container_counterexample :
    List.filter isBitcodeMarker
      [⟨"__text", [144], []⟩, ⟨"__cmdline", [45, 99, 0], []⟩] = [] ∧
    List.filter isCommands
      [⟨"__text", [144], []⟩, ⟨"__cmdline", [45, 99, 0], []⟩] ≠ [] ∧
    GetBitcodeInfoSectionsBuild true
      [⟨"__text", [144], []⟩, ⟨"__cmdline", [45, 99, 0], []⟩] = .nullDereference ∧
    GetBitcodeInfoSectionsBuild false
      [⟨"__cmd", [45, 99, 0], []⟩, ⟨"__cmdline", [45, 79, 0], []⟩] =
      .defined (.assertFailed "Multiple command sections!") := by
  refine ⟨by decide, by decide, ?_, ?_⟩ <;>
    simp [GetBitcodeInfoSectionsBuild, scanSectionsBuild, GetCommands, GetSectionData,
      GetCommandsLoop, cString]

/-- C11: the file name attached to a container's binary metadata is `GetFileName` of the
object's file name, and `GetFileName` strips every directory prefix: its result holds
no `/`, the input is a prefix that is empty or ends with `/` followed by the result,
an input without `/` is returned unchanged, and `GetFileName` is idempotent. -/
theorem GetFileName_strips_directories (s : String) (o : ObjectFile)
    (e : BitcodeInfo) (c : BitcodeContainer) :
    '/' ∉ (GetFileName s).data ∧
      (∃ p : String, s = p ++ GetFileName s ∧ (p = "" ∨ ∃ q : String, p = q ++ "/")) ∧
      ('/' ∉ s.data → GetFileName s = s) ∧
      GetFileName (GetFileName s) = GetFileName s ∧
      (GetBitcodeInfoFromMachO o = .ok e ∨ GetBitcodeInfoFromObject o = .ok e →
        e.bitcodeContainer = some c →
        c.binaryMetadata.fileName = GetFileName o.fileName ∧
        '/' ∉ c.binaryMetadata.fileName.data) := by
  refine ⟨GetFileName_no_slash s, GetFileName_split s, GetFileName_of_no_slash s,
    GetFileName_of_no_slash _ (GetFileName_no_slash s), fun h hc => ?_⟩
  have hf : c.binaryMetadata.fileName = GetFileName o.fileName := by
    rcases h with h | h
    · exact ((GetBitcodeInfoFromMachO_entry o e h).2 c hc).2
    · exact ((GetBitcodeInfoFromObject_entry o e h).2 c hc).2
  exact ⟨hf, by rw [hf]; exact GetFileName_no_slash _⟩

theorem GetFileName_strips_directories_witness :
    (BitcodeContainer.mk false [66, 67] []
        ⟨"a.o", "elf64-x86-64", "x86_64", []⟩).binaryMetadata.fileName =
      GetFileName "lib/a.o" ∧
    '/' ∉ (BitcodeContainer.mk false [66, 67] []
        ⟨"a.o", "elf64-x86-64", "x86_64", []⟩).binaryMetadata.fileName.data :=
  (GetFileName_strips_directories "lib/a.o"
    ⟨"lib/a.o", "elf64-x86-64", "x86_64", [],
        [⟨".text", [195], []⟩, ⟨".llvmbc", [66, 67], []⟩]⟩
    ⟨"x86_64", some ⟨false, [66, 67], [], ⟨"a.o", "elf64-x86-64", "x86_64", []⟩⟩⟩
    ⟨false, [66, 67], [], ⟨"a.o", "elf64-x86-64", "x86_64", []⟩⟩).2.2.2.2
    (Or.inr (by decide)) (by decide)

/-- C12: two `EmbeddedFile` values compare equal exactly when their names are equal,
whatever their buffers, buffer sizes, type tags, commands and command sources. So the
comparison is reflexive, symmetric and transitive, two files built from the same name
are equal, and any two files built from a buffer, whose name is empty, are equal. -/
theorem EmbeddedFile_equality_is_name_equality (a b c : EmbeddedFile) (name : String)
    (t1 t2 : EmbeddedFile.Kind) (buf1 buf2 : Option Bytes) (n1 n2 : Nat) :
    (a.eq b = true ↔ a._name = b._name) ∧
      a.eq a = true ∧
      (a.eq b = true → b.eq a = true) ∧
      (a.eq b = true → b.eq c = true → a.eq c = true) ∧
      (EmbeddedFile.fromName name).eq (EmbeddedFile.fromName name) = true ∧
      (EmbeddedFile.fromNameType name t1).eq (EmbeddedFile.fromNameType name t2) = true ∧
      (EmbeddedFile.fromName name).eq (EmbeddedFile.fromNameType name t2) = true ∧
      (EmbeddedFile.fromBuffer buf1 n1).eq (EmbeddedFile.fromBuffer buf2 n2) = true ∧
      (EmbeddedFile.fromBufferType buf1 n1 t1).eq
        (EmbeddedFile.fromBufferType buf2 n2 t2) = true ∧
      (EmbeddedFile.fromBuffer buf1 n1).eq (EmbeddedFile.fromBufferType buf2 n2 t2) = true := by
  refine ⟨?_, ?_, ?_, ?_, ?_, ?_, ?_, ?_, ?_, ?_⟩
  · simp [EmbeddedFile.eq, EmbeddedFile.GetName]
  · simp [EmbeddedFile.eq]
  · intro h
    simp only [EmbeddedFile.eq, decide_eq_true_eq] at h ⊢
    exact h.symm
  · intro h1 h2
    simp only [EmbeddedFile.eq, decide_eq_true_eq] at h1 h2 ⊢
    exact h1.trans h2
  all_goals
    simp [EmbeddedFile.eq, EmbeddedFile.GetName, EmbeddedFile.fromName,
      EmbeddedFile.fromNameType, EmbeddedFile.fromBuffer, EmbeddedFile.fromBufferType]

theorem EmbeddedFile_equality_is_name_equality_witness :
    ((EmbeddedFile.fromName "lib.o").SetCommands [[45, 99]] .Clang).eq
      (EmbeddedFile.fromNameType "lib.o" .Object) = true :=
  (EmbeddedFile_equality_is_name_equality
    (EmbeddedFile.fromNameType "lib.o" .Object)
    ((EmbeddedFile.fromName "lib.o").SetCommands [[45, 99]] .Clang)
    (EmbeddedFile.fromBuffer (some [1, 2]) 2) "lib.o" .Object .Xar none none 0 0).2.2.1
    (by decide)

/-- C13: on a commands section of zero bytes `GetCommands` does not return the empty
list. The body of its `do ... while` loop runs before the end of the section is
tested, so one string is read from the bytes behind the section and returned; an
object with a `__bitcode` section and an empty `__cmdline` section gets a container
whose commands list holds that string. -/
theorem GetCommands_zero_byte_section_reads_one_string :
    (∀ name after, GetCommands ⟨name, [], after⟩ = [cString after]) ∧
      GetCommands ⟨"__cmdline", [], [45, 79, 50]⟩ = [[45, 79, 50]] ∧
      GetBitcodeInfoSections
        [⟨"__bitcode", [66, 67, 192, 222], []⟩, ⟨"__cmdline", [], [45, 79, 50]⟩] =
        .ok (some ((BitcodeContainer.new [66, 67, 192, 222] 4).SetCommands
          [[45, 79, 50]])) := by
  have h : GetCommands ⟨"__cmdline", [], [45, 79, 50]⟩ = [[45, 79, 50]] := by
    rw [GetCommands_zero_bytes]; decide
  refine ⟨GetCommands_zero_bytes, h, ?_⟩
  simp [GetBitcodeInfoSections, scanSections, h, GetSectionData, BitcodeContainer.new]

/-- C14: a failure inside a fat-binary slice that was viewed as an archive is fatal for
the whole fat binary. With an unreadable (or failing) member in the archive of a
slice the traversal never returns entries; unless a slice or member before it stops
the process at an assertion, the traversal returns a failure and the public
`GetBitcodeInfo` returns the empty sequence; when the slices and members before it
are valid, the failure is the one of that member, and the entries collected from the
earlier slices are gone. -/
theorem fat_binary_archive_slice_failure_is_fatal (pre post : List ObjectForArch)
    (before behind : List Child) (bad : Child) (err : Option String) (msg : String)
    (hbad : childResult bad = .error msg) :
    (∀ l, GetBitcodeInfo (.universal
        (pre ++ .mk none (some (.mk (before ++ bad :: behind) err)) :: post)) ≠ .ok l) ∧
      ((∀ s ∈ pre, ∀ m, sliceResult s ≠ .assertFailed m) →
        (∀ c ∈ before, ∀ m, childResult c ≠ .assertFailed m) →
        (∃ e, GetBitcodeInfo (.universal
          (pre ++ .mk none (some (.mk (before ++ bad :: behind) err)) :: post)) = .error e) ∧
        BitcodeRetriever.GetBitcodeInfo (.ok (.universal
          (pre ++ .mk none (some (.mk (before ++ bad :: behind) err)) :: post))) = .ok []) ∧
      ((∀ s ∈ pre, ∃ l, sliceResult s = .ok l) →
        (∀ c ∈ before, ∃ l, childResult c = .ok l) →
        GetBitcodeInfo (.universal
          (pre ++ .mk none (some (.mk (before ++ bad :: behind) err)) :: post)) =
          .error msg) := by
  have hnot : ∀ l, sliceResult (.mk none (some (.mk (before ++ bad :: behind) err))) ≠ .ok l := by
    intro l
    simpa only [sliceResult, GetBitcodeInfoFromArchive] using
      (archiveLoop_failure before behind bad err msg hbad []).1 l
  refine ⟨?_, ?_, ?_⟩
  · intro l
    rw [GetBitcodeInfo]
    exact universalLoop_never_ok pre post _ hnot [] l
  · intro hp hb
    obtain ⟨e, he⟩ := archiveLoop_failure_error before behind bad err msg hbad [] hb
    have hs : sliceResult (.mk none (some (.mk (before ++ bad :: behind) err))) = .error e := by
      simpa only [sliceResult, GetBitcodeInfoFromArchive] using he
    obtain ⟨e2, he2⟩ := (universalLoop_failure pre post _ e hs []).2.1 hp
    have hg : GetBitcodeInfo (.universal
        (pre ++ .mk none (some (.mk (before ++ bad :: behind) err)) :: post)) = .error e2 := by
      rw [GetBitcodeInfo]; exact he2
    exact ⟨⟨e2, hg⟩, by simp [BitcodeRetriever.GetBitcodeInfo, hg]⟩
  · intro hp hb
    have he := (archiveLoop_failure before behind bad err msg hbad []).2 hb
    have hs : sliceResult (.mk none (some (.mk (before ++ bad :: behind) err))) = .error msg := by
      simpa only [sliceResult, GetBitcodeInfoFromArchive] using he
    rw [GetBitcodeInfo]
    exact (universalLoop_failure pre post _ msg hs []).2.2 hp

theorem fat_binary_archive_slice_failure_is_fatal_witness :
    GetBitcodeInfo (.universal
      [.mk (some
        ⟨"build/main.o", "Mach-O 64-bit x86-64", "x86_64",
        [17, 34, 51, 68],
        [⟨"__text", [144, 195], []⟩, ⟨"__bitcode", [66, 67, 192, 222], [0]⟩]⟩) none,
       .mk none (some (.mk
        [.binary (.object
        ⟨"lib/a.o", "elf64-x86-64", "x86_64", [],
        [⟨".text", [195], []⟩, ⟨".llvmbc", [66, 67], []⟩]⟩),
         .unreadable "truncated member"] none))]) =
      .error "truncated member" ∧
    BitcodeRetriever.GetBitcodeInfo (.ok (.universal
      [.mk (some
        ⟨"build/main.o", "Mach-O 64-bit x86-64", "x86_64",
        [17, 34, 51, 68],
        [⟨"__text", [144, 195], []⟩, ⟨"__bitcode", [66, 67, 192, 222], [0]⟩]⟩) none,
       .mk none (some (.mk
        [.binary (.object
        ⟨"lib/a.o", "elf64-x86-64", "x86_64", [],
        [⟨".text", [195], []⟩, ⟨".llvmbc", [66, 67], []⟩]⟩),
         .unreadable "truncated member"] none))])) = .ok [] :=
  have slices : ∀ s ∈ [ObjectForArch.mk (some
        ⟨"build/main.o", "Mach-O 64-bit x86-64", "x86_64",
        [17, 34, 51, 68],
        [⟨"__text", [144, 195], []⟩, ⟨"__bitcode", [66, 67, 192, 222], [0]⟩]⟩) none],
      ∃ l, sliceResult s = .ok l := by
    intro s hs
    rw [List.mem_singleton] at hs
    subst hs
    exact ⟨[⟨"x86_64", some ⟨false, [66, 67, 192, 222], [],
      ⟨"main.o", "Mach-O 64-bit x86-64", "x86_64", [17, 34, 51, 68]⟩⟩⟩], by decide⟩
  have members : ∀ c ∈ [Child.binary (.object
        ⟨"lib/a.o", "elf64-x86-64", "x86_64", [],
        [⟨".text", [195], []⟩, ⟨".llvmbc", [66, 67], []⟩]⟩)],
      ∃ l, childResult c = .ok l := by
    intro c hc
    rw [List.mem_singleton] at hc
    subst hc
    exact ⟨[⟨"x86_64", some ⟨false, [66, 67], [], ⟨"a.o", "elf64-x86-64", "x86_64", []⟩⟩⟩],
      by decide⟩
  have h := fat_binary_archive_slice_failure_is_fatal
    [.mk (some
        ⟨"build/main.o", "Mach-O 64-bit x86-64", "x86_64",
        [17, 34, 51, 68],
        [⟨"__text", [144, 195], []⟩, ⟨"__bitcode", [66, 67, 192, 222], [0]⟩]⟩) none] []
    [.binary (.object
        ⟨"lib/a.o", "elf64-x86-64", "x86_64", [],
        [⟨".text", [195], []⟩, ⟨".llvmbc", [66, 67], []⟩]⟩)] []
    (.unreadable "truncated member") none "truncated member" (by rfl)
  ⟨h.2.2 slices members,
    (h.2.1
      (fun s hs m hm => by
        obtain ⟨l, hl⟩ := slices s hs
        rw [hl] at hm
        cases hm)
      (fun c hc m hm => by
        obtain ⟨l, hl⟩ := members c hc
        rw [hl] at hm
        cases hm)).2⟩

/-- C15: the traversal and the commands parser are total. The traversal, run with a
budget for the depth of its recursion, returns its result as soon as the budget
reaches the nesting depth of the container tree. Every iteration of the `GetCommands`
loop moves the read position forward by the length of the string read plus one, and
`max 1 n` iterations suffice for a section of `n` bytes. -/
theorem traversal_and_GetCommands_terminate (binary : Binary) (sect : SectionRef)
    (mem : Bytes) (p : Nat) :
    GetBitcodeInfoFuel binary.depth binary = some (GetBitcodeInfo binary) ∧
      (∀ fuel, binary.depth ≤ fuel →
        GetBitcodeInfoFuel fuel binary = some (GetBitcodeInfo binary)) ∧
      p < p + ((cString (mem.drop p)).length + 1) ∧
      GetCommandsLoopFuel (max 1 sect.contents.length) (GetSectionData sect).1 0
        (GetSectionData sect).2 [] = some (GetCommands sect) ∧
      (∀ fuel, max 1 sect.contents.length ≤ fuel →
        GetCommandsLoopFuel fuel (GetSectionData sect).1 0 (GetSectionData sect).2 [] =
          some (GetCommands sect)) := by
  refine ⟨GetBitcodeInfoFuel_enough binary _ (le_refl _),
    fun fuel h => GetBitcodeInfoFuel_enough binary fuel h, by omega, ?_, ?_⟩
  · exact GetCommandsLoopFuel_enough _ _ _ 0 [] (by simp [GetSectionData])
  · intro fuel h
    exact GetCommandsLoopFuel_enough _ _ _ 0 [] (by simpa [GetSectionData] using h)

theorem traversal_and_GetCommands_terminate_witness :
    GetBitcodeInfoFuel 3 (.archive (.mk [.binary (.archive (.mk [.binary .other] none))]
      none)) =
    some (GetBitcodeInfo (.archive (.mk [.binary (.archive (.mk [.binary .other] none))]
      none))) :=
  (traversal_and_GetCommands_terminate
    (.archive (.mk [.binary (.archive (.mk [.binary .other] none))] none))
    ⟨"__cmdline", [45, 99, 0], []⟩ [45, 99, 0] 0).2.1 3 (by decide)

/-- C16: every entry of a successful traversal keeps the identity of the object it was
read from. Paired in order with the plain objects of the tree, each entry is labelled
with its object's architecture, also when its container is absent, and a container
that is present carries the same architecture and `GetFileName` of the object's file
name in its binary metadata. The public `GetBitcodeInfo` returns these entries. -/
theorem entries_preserve_architecture_identity (binary : Binary)
    (entries : List BitcodeInfo) (h : GetBitcodeInfo binary = .ok entries) :
    List.Forall₂ entryOfObject binary.leafObjects entries ∧
      (∀ e ∈ entries, ∃ o ∈ binary.leafObjects, entryOfObject o e) ∧
      (∀ e ∈ entries, ∀ c, e.bitcodeContainer = some c → c.binaryMetadata.arch = e.arch) ∧
      BitcodeRetriever.GetBitcodeInfo (.ok binary) = .ok entries := by
  have h1 : List.Forall₂ entryOfObject binary.leafObjects entries := by
    apply entries_of_leafObjects
    rw [← GetBitcodeInfo_leafEntries binary entries h]
    exact Binary_leafEntries_leafObjects binary
  have h2 : ∀ e ∈ entries, ∃ o ∈ binary.leafObjects, entryOfObject o e :=
    entries_have_leafObject _ _ h1
  refine ⟨h1, h2, ?_, ?_⟩
  · intro e he c hc
    obtain ⟨o, _, ho⟩ := h2 e he
    exact (ho.2 c hc).1
  · simp [BitcodeRetriever.GetBitcodeInfo, h]

theorem entries_preserve_architecture_identity_witness :
    List.Forall₂ entryOfObject
      (Binary.leafObjects (.universal
      [.mk (some
        ⟨"build/main.o", "Mach-O 64-bit x86-64", "x86_64",
        [17, 34, 51, 68],
        [⟨"__text", [144, 195], []⟩, ⟨"__bitcode", [66, 67, 192, 222], [0]⟩]⟩) none,
       .mk none (some (.mk
        [.binary (.object
        ⟨"lib/a.o", "elf64-x86-64", "x86_64", [],
        [⟨".text", [195], []⟩, ⟨".llvmbc", [66, 67], []⟩]⟩)] none))]))
      [⟨"x86_64", some ⟨false, [66, 67, 192, 222], [],
      ⟨"main.o", "Mach-O 64-bit x86-64", "x86_64", [17, 34, 51, 68]⟩⟩⟩,
       ⟨"x86_64", some ⟨false, [66, 67], [], ⟨"a.o", "elf64-x86-64", "x86_64", []⟩⟩⟩] :=
  (entries_preserve_architecture_identity
    (.universal
      [.mk (some
        ⟨"build/main.o", "Mach-O 64-bit x86-64", "x86_64",
        [17, 34, 51, 68],
        [⟨"__text", [144, 195], []⟩, ⟨"__bitcode", [66, 67, 192, 222], [0]⟩]⟩) none,
       .mk none (some (.mk
        [.binary (.object
        ⟨"lib/a.o", "elf64-x86-64", "x86_64", [],
        [⟨".text", [195], []⟩, ⟨".llvmbc", [66, 67], []⟩]⟩)] none))])
    [⟨"x86_64", some ⟨false, [66, 67, 192, 222], [],
      ⟨"main.o", "Mach-O 64-bit x86-64", "x86_64", [17, 34, 51, 68]⟩⟩⟩,
     ⟨"x86_64", some ⟨false, [66, 67], [], ⟨"a.o", "elf64-x86-64", "x86_64", []⟩⟩⟩]
    (by decide)).1

/-- C17: the result of the scan does not depend on the order of the commands section
and the bitcode-marker section. Swapping the two among sections without marker names
gives the same result, any two section lists with the same single marker section `b`
and the same single commands section `c` give the same result, and that result is a
container with the bytes and the kind built from `b` and the commands read from `c`. -/
theorem scan_independent_of_section_order (pre mid post first second : List SectionRef)
    (b c : SectionRef)
    (hb : isBitcodeMarker b = true) (hc : isCommands c = true)
    (hothers : ∀ s ∈ pre ++ mid ++ post, s.name ∉
      [".llvmbc", "__bitcode", "__bundle", "__cmd", "__cmdline", ".llvmcmd"])
    (h1b : first.filter isBitcodeMarker = [b]) (h1c : first.filter isCommands = [c])
    (h2b : second.filter isBitcodeMarker = [b]) (h2c : second.filter isCommands = [c]) :
    GetBitcodeInfoSections (pre ++ b :: mid ++ c :: post) =
        GetBitcodeInfoSections (pre ++ c :: mid ++ b :: post) ∧
      GetBitcodeInfoSections first = GetBitcodeInfoSections second ∧
      (∃ container, GetBitcodeInfoSections first = .ok (some container) ∧
        container.data = (markerContainer b).data ∧
        container.IsArchive = (markerContainer b).IsArchive ∧
        container.commands = GetCommands c) := by
  have key : ∀ l : List SectionRef, l.filter isBitcodeMarker = [b] →
      l.filter isCommands = [c] →
      GetBitcodeInfoSections l =
        .ok (some ((markerContainer b).SetCommands (GetCommands c))) := by
    intro l h1 h2
    rw [GetBitcodeInfoSections_ok l (by simp [h1]) (by simp [h2])]
    simp [h1, h2]
  have hcb : isBitcodeMarker c = false := isCommands_not_isBitcodeMarker c hc
  have hbc : isCommands b = false := by
    cases h : isCommands b
    · rfl
    · rw [isCommands_not_isBitcodeMarker b h] at hb; cases hb
  obtain ⟨ho1, ho2⟩ := filter_markers_of_names _ hothers
  simp only [List.filter_append, List.append_eq_nil] at ho1 ho2
  refine ⟨?_, ?_, ?_⟩
  · rw [key (pre ++ b :: mid ++ c :: post), key (pre ++ c :: mid ++ b :: post)]
    · simp [List.filter_append, List.filter_cons, hb, hcb, ho1]
    · simp [List.filter_append, List.filter_cons, hc, hbc, ho2]
    · simp [List.filter_append, List.filter_cons, hb, hcb, ho1]
    · simp [List.filter_append, List.filter_cons, hc, hbc, ho2]
  · rw [key first h1b h1c, key second h2b h2c]
  · exact ⟨_, key first h1b h1c, rfl, rfl, rfl⟩

theorem scan_independent_of_section_order_witness :
    GetBitcodeInfoSections
      [⟨"__text", [144], []⟩, ⟨"__bundle", [120, 97, 114, 33], []⟩,
       ⟨"__data", [1], []⟩, ⟨"__cmdline", [45, 99, 0], []⟩] =
    GetBitcodeInfoSections
      [⟨"__text", [144], []⟩, ⟨"__cmdline", [45, 99, 0], []⟩,
       ⟨"__data", [1], []⟩, ⟨"__bundle", [120, 97, 114, 33], []⟩] :=
  (scan_independent_of_section_order [⟨"__text", [144], []⟩] [⟨"__data", [1], []⟩] []
    [⟨"__cmdline", [45, 99, 0], []⟩, ⟨"__bundle", [120, 97, 114, 33], []⟩]
    [⟨"__bundle", [120, 97, 114, 33], []⟩, ⟨"__cmdline", [45, 99, 0], []⟩]
    ⟨"__bundle", [120, 97, 114, 33], []⟩ ⟨"__cmdline", [45, 99, 0], []⟩
    (by decide) (by decide) (by decide) (by decide) (by decide) (by decide) (by decide)).1

/-- C18: `EmbeddedFile::SetCommands` with an empty list changes nothing (a list set
before stays, with its command source); with a non-empty list it stores the list and
the command source. Name, type tag, buffer and buffer size are unchanged either way,
and `GetCommands` returns the stored list. -/
theorem EmbeddedFile_SetCommands_frame (f : EmbeddedFile) (commands : List Bytes)
    (source : EmbeddedFile.CommandSource) :
    f.SetCommands [] source = f ∧
      (commands ≠ [] →
        (f.SetCommands commands source)._commands = commands ∧
        (f.SetCommands commands source)._commandSource = some source) ∧
      (f.SetCommands commands source)._name = f._name ∧
      (f.SetCommands commands source)._type = f._type ∧
      (f.SetCommands commands source)._buffer = f._buffer ∧
      (f.SetCommands commands source)._bufferSize = f._bufferSize ∧
      (f.SetCommands commands source).GetCommands =
        (f.SetCommands commands source)._commands ∧
      (f.SetCommands commands source).GetCommands =
        (if commands ≠ [] then commands else f.GetCommands) := by
  refine ⟨by simp [EmbeddedFile.SetCommands], ?_, ?_, ?_, ?_, ?_, rfl, ?_⟩
  · intro h; simp [EmbeddedFile.SetCommands, h]
  all_goals
    by_cases h : commands = [] <;> simp [EmbeddedFile.SetCommands, EmbeddedFile.GetCommands, h]

theorem EmbeddedFile_SetCommands_frame_witness :
    ((EmbeddedFile.fromBufferType (some [66, 67]) 2 .Bitcode).SetCommands
        [[45, 99], [45, 79]] .Swift)._commands = [[45, 99], [45, 79]] ∧
    ((EmbeddedFile.fromBufferType (some [66, 67]) 2 .Bitcode).SetCommands
        [[45, 99], [45, 79]] .Swift)._commandSource = some .Swift :=
  (EmbeddedFile_SetCommands_frame (EmbeddedFile.fromBufferType (some [66, 67]) 2 .Bitcode)
    [[45, 99], [45, 79]] .Swift).2.1 (by decide)

end ebc
